import Mathlib

/-!
Shallow embedding of the build-orchestration core of the Appia2025 repository
(the `Builder` component in `src/unnamed/part_005` and its near-identical
variant `src/frontend/src/components/builder/builder-root.tsx`, with the step
and file-tree types from `src/unnamed/part_006`).

Modelling conventions:
* JavaScript strings are Lean `String`s; character-level scanning is done on
  `String.data` (`List Char`).
* `Array.prototype.sort` (stable in modern engines) with the `sortFileNodes`
  comparator is modelled by Mathlib's stable `List.insertionSort`;
  `String.prototype.localeCompare` is modelled by code-point order `≤` on
  `String` (the two agree on the ASCII names the builder produces).
* The object spread `{...oldNode, ...fileItem}` that overwrites an existing
  node at a leaf path is modelled as the new file node: every field the tree
  code ever reads (`name`, `path`, `type`, `content`, `children` of folder
  nodes) agrees, the only difference being a stale `children` property on a
  node whose `type` is `file`, which no code path observes.
* `upsertFile` on a path all of whose `/`-segments are empty (e.g. `"/"`)
  makes the source recurse past the end of the segment array and crash; the
  model returns the tree unchanged for that out-of-domain input.
-/

set_option maxHeartbeats 4000000
set_option maxRecDepth 100000

namespace Appia

/-- `FileItem` from the repository's types: a file node or a folder node. -/
inductive FileItem : Type where
  | file (name path content : String)
  | folder (name path : String) (children : List FileItem)

mutual

def FileItem.deq : (a b : FileItem) → Decidable (a = b)
  | .file n p c, .file n' p' c' =>
    if h : n = n' ∧ p = p' ∧ c = c' then
      isTrue (by rcases h with ⟨h1, h2, h3⟩; rw [h1, h2, h3])
    else
      isFalse (by intro he; injection he with e1 e2 e3; exact h ⟨e1, e2, e3⟩)
  | .file _ _ _, .folder _ _ _ => isFalse (fun he => FileItem.noConfusion he)
  | .folder _ _ _, .file _ _ _ => isFalse (fun he => FileItem.noConfusion he)
  | .folder n p ch, .folder n' p' ch' =>
    if h : n = n' ∧ p = p' then
      match FileItem.deqList ch ch' with
      | isTrue hc => isTrue (by rcases h with ⟨h1, h2⟩; rw [h1, h2, hc])
      | isFalse hc => isFalse (by intro he; injection he with _ _ e3; exact hc e3)
    else
      isFalse (by intro he; injection he with e1 e2 _; exact h ⟨e1, e2⟩)

def FileItem.deqList : (l l' : List FileItem) → Decidable (l = l')
  | [], [] => isTrue rfl
  | [], _ :: _ => isFalse (fun he => List.noConfusion he)
  | _ :: _, [] => isFalse (fun he => List.noConfusion he)
  | a :: l, b :: l' =>
    match FileItem.deq a b, FileItem.deqList l l' with
    | isTrue h1, isTrue h2 => isTrue (by rw [h1, h2])
    | isFalse h1, _ => isFalse (by intro he; injection he with e1 _; exact h1 e1)
    | _, isFalse h2 => isFalse (by intro he; injection he with _ e2; exact h2 e2)

end

instance : DecidableEq FileItem := FileItem.deq

def FileItem.name : FileItem → String
  | .file n _ _ => n
  | .folder n _ _ => n

def FileItem.path : FileItem → String
  | .file _ p _ => p
  | .folder _ p _ => p

def FileItem.isFolder : FileItem → Bool
  | .file _ _ _ => false
  | .folder _ _ _ => true

/-- Lexicographic code-point comparison of character lists, the model of
`localeCompare` (they agree on the ASCII names the builder produces). -/
def lexLe : List Char → List Char → Bool
  | [], _ => true
  | _ :: _, [] => false
  | a :: as, b :: bs => if a = b then lexLe as bs else decide (a < b)

def nameLe (a b : String) : Bool := lexLe a.data b.data

/-- The `sortFileNodes` comparator as a "comes before or ties" test:
folders sort before files, same-type nodes compare by name. -/
def nodeLe (a b : FileItem) : Bool :=
  if a.isFolder = b.isFolder then nameLe a.name b.name else a.isFolder

/-- The comparator as a relation, for Mathlib's sorting lemmas. -/
def nodeRel (a b : FileItem) : Prop := nodeLe a b = true

instance : DecidableRel nodeRel := fun a b => by
  unfold nodeRel; infer_instance


/-- `sortFileNodes`: stable sort of a sibling list by the comparator. -/
def sortFileNodes (nodes : List FileItem) : List FileItem :=
  nodes.insertionSort nodeRel

/-- `nodes.findIndex(item => item.path === fullPath)` together with the
element found, as one recursive lookup. -/
def lookupPath (nodes : List FileItem) (fp : String) : Option (Nat × FileItem) :=
  match nodes with
  | [] => none
  | x :: xs =>
    if x.path = fp then some (0, x)
    else (lookupPath xs fp).map (fun p => (p.1 + 1, p.2))

/-- Path concatenation `currentPath ? currentPath + "/" + name : name`. -/
def joinPath (cur name : String) : String :=
  if cur = "" then name else cur ++ "/" ++ name

/-- The recursive `insert` of `upsertFile`, by recursion on the remaining
path segments. -/
def insertNode (nodes : List FileItem) (segs : List String) (cur : String)
    (content : String) : List FileItem :=
  match segs with
  | [] => nodes
  | [name] =>
    let fp := joinPath cur name
    let f : FileItem := .file name fp content
    match lookupPath nodes fp with
    | some (i, _) => sortFileNodes (nodes.set i f)
    | none => sortFileNodes (nodes ++ [f])
  | name :: b :: rest =>
    let fp := joinPath cur name
    match lookupPath nodes fp with
    | some (i, .folder n p ch) =>
      sortFileNodes (nodes.set i (.folder n p (insertNode ch (b :: rest) fp content)))
    | some (i, .file _ _ _) =>
      sortFileNodes (nodes.set i (.folder name fp (insertNode [] (b :: rest) fp content)))
    | none =>
      sortFileNodes (nodes ++ [.folder name fp (insertNode [] (b :: rest) fp content)])

/-- Split a character list at `/` separators (JavaScript `split('/')`). -/
def splitSlash : List Char → List (List Char)
  | [] => [[]]
  | c :: rest =>
    if c = '/' then [] :: splitSlash rest
    else
      match splitSlash rest with
      | [] => [[c]]
      | s :: ss => (c :: s) :: ss

/-- `path.split('/').filter(Boolean)`. -/
def splitSegs (p : String) : List String :=
  ((splitSlash p.data).filter (· ≠ [])).map (fun cs => String.mk cs)

/-- `upsertFile(tree, path, content)` from the builder. -/
def upsertFile (tree : List FileItem) (p : String) (content : String) :
    List FileItem :=
  if p = "" then tree else insertNode tree (splitSegs p) "" content

/-- A sequence of `(path, content)` upserts applied to a starting tree. -/
def applyUpserts (tree : List FileItem) (ops : List (String × String)) :
    List FileItem :=
  ops.foldl (fun t pc => upsertFile t pc.1 pc.2) tree

/-- Discriminating observation used to separate unequal concrete trees
without deciding `FileItem` equality: the child count of the first node
when it is a folder. -/
def firstChildCount : List FileItem → Nat
  | .folder _ _ ch :: _ => ch.length
  | _ => 0

/-- Well-formedness of a sibling list under a given parent path: sibling
`path` fields are pairwise distinct, every node's `path` is the slash-join
of the parent path and its `name`, and folder children are well-formed
under the folder's full path. Trees built by `upsertFile` from the empty
tree satisfy this. -/
inductive WfList : String → List FileItem → Prop where
  | mk (cur : String) (nodes : List FileItem) :
      (nodes.map FileItem.path).Nodup →
      (∀ x ∈ nodes, x.path = joinPath cur x.name) →
      (∀ n p ch, FileItem.folder n p ch ∈ nodes → WfList p ch) →
      WfList cur nodes

/-- The sibling-ordering invariant of the claim, recursively at every level:
the list is pairwise ordered by the comparator (so folders precede files and
each group is sorted by name), and children of every folder satisfy the
same invariant. -/
inductive TreeOrdered : List FileItem → Prop where
  | mk (l : List FileItem) : l.Pairwise nodeRel →
      (∀ n p ch, FileItem.folder n p ch ∈ l → TreeOrdered ch) → TreeOrdered l

/-! ### Streaming directive extraction (`handleStreamBuffer`) -/

/-- Result of matching a piece of the action-tag pattern at one position:
a match with the remaining characters, a definite mismatch, or a mismatch
only because the buffer ended (the tag may complete once more of the
stream arrives). -/
inductive PRes (α : Type) where
  | ok (val : α) (rest : List Char)
  | fail
  | more
  deriving Repr

/-- Match a literal character sequence. -/
def expectLit : List Char → List Char → PRes Unit
  | [], rest => .ok () rest
  | _ :: _, [] => .more
  | e :: es, c :: cs => if c = e then expectLit es cs else .fail

/-- Whitespace as matched by the regex class (ASCII subset; the model covers
the characters model responses produce). -/
def wsChar (c : Char) : Bool := c = ' ' || c = '\n' || c = '\t' || c = '\r'

/-- Consume the rest of a maximal whitespace run. -/
def wsGo : List Char → PRes Unit
  | [] => .more
  | c :: cs => if wsChar c then wsGo cs else .ok () (c :: cs)

/-- `\s+`: one or more whitespace characters, maximal run. -/
def wsPlus : List Char → PRes Unit
  | [] => .more
  | c :: cs => if wsChar c then wsGo cs else .fail

/-- `([^"]*)"`: capture up to and consume the next double quote. -/
def untilQuote : List Char → PRes (List Char)
  | [] => .more
  | c :: cs =>
    if c = '"' then .ok [] cs
    else
      match untilQuote cs with
      | .ok v r => .ok (c :: v) r
      | .fail => .fail
      | .more => .more

/-- Lazy body match `([\s\S]*?)<\/boltAction>`: capture up to the first
occurrence of the closing tag and consume it. -/
def findClose : List Char → PRes (List Char)
  | [] => .more
  | c :: cs =>
    match expectLit "</boltAction>".data (c :: cs) with
    | .ok _ r => .ok [] r
    | .more => .more
    | .fail =>
      match findClose cs with
      | .ok b r => .ok (c :: b) r
      | .fail => .fail
      | .more => .more

/-- The optional group `(?:\s+filePath="([^"]*)")?` followed by `>`. -/
def parseFilePathAttr (l : List Char) : PRes (List Char) :=
  match wsPlus l with
  | .fail => .fail
  | .more => .more
  | .ok _ r1 =>
    match expectLit "filePath=\"".data r1 with
    | .fail => .fail
    | .more => .more
    | .ok _ r2 =>
      match untilQuote r2 with
      | .fail => .fail
      | .more => .more
      | .ok p r3 =>
        match expectLit ">".data r3 with
        | .fail => .fail
        | .more => .more
        | .ok _ r4 => .ok p r4

/-- One attempt of the action regex
`<boltAction\s+type="([^"]*)"(?:\s+filePath="([^"]*)")?>([\s\S]*?)<\/boltAction>`
at the head of `l`, following the engine's greedy/backtracking order. -/
def parseAction (l : List Char) : PRes (String × Option String × String) :=
  match expectLit "<boltAction".data l with
  | .fail => .fail
  | .more => .more
  | .ok _ r1 =>
    match wsPlus r1 with
    | .fail => .fail
    | .more => .more
    | .ok _ r2 =>
      match expectLit "type=\"".data r2 with
      | .fail => .fail
      | .more => .more
      | .ok _ r3 =>
        match untilQuote r3 with
        | .fail => .fail
        | .more => .more
        | .ok ty r4 =>
          match parseFilePathAttr r4 with
          | .ok p r5 =>
            (match findClose r5 with
             | .ok b r6 => .ok (String.mk ty, some (String.mk p), String.mk b) r6
             | .fail => .fail
             | .more => .more)
          | .more => .more
          | .fail =>
            match expectLit ">".data r4 with
            | .fail => .fail
            | .more => .more
            | .ok _ r5 =>
              match findClose r5 with
              | .ok b r6 => .ok (String.mk ty, none, String.mk b) r6
              | .fail => .fail
              | .more => .more

/-- One match of the action regex: character offset of the match, the `type`
attribute capture, the optional `filePath` capture, and the raw body. -/
structure RawDirective where
  offset : Nat
  kind : String
  filePath : Option String
  body : String
  deriving DecidableEq, Repr

/-- The global regex scan: try a match at each position; on a match, skip its
span (the engine continues from `lastIndex`); a position where the pattern
ran off the end of the buffer sets the "incomplete tail seen" flag. -/
def scanGo : List Char → Nat → Nat → List RawDirective × Bool
  | [], _, _ => ([], false)
  | _ :: cs, pos, skip + 1 => scanGo cs (pos + 1) skip
  | l@(_ :: cs), pos, 0 =>
    match parseAction l with
    | .ok d rest =>
      let consumed := l.length - rest.length
      let res := scanGo cs (pos + 1) (consumed - 1)
      ({ offset := pos, kind := d.1, filePath := d.2.1, body := d.2.2 } :: res.1, res.2)
    | .fail => scanGo cs (pos + 1) 0
    | .more =>
      let res := scanGo cs (pos + 1) 0
      (res.1, true)

/-- All matches of the action regex over the buffer, plus whether some
position failed only by running off the end (an unterminated tag). -/
def scanActions (l : List Char) : List RawDirective × Bool := scanGo l 0 0

/-- `title="([^"]*)"` attempted at exactly this position. -/
def tryTitleAt (l : List Char) : Option (List Char) :=
  match expectLit "title=\"".data l with
  | .ok _ r =>
    (match untilQuote r with
     | .ok t _ => some t
     | _ => none)
  | _ => none

/-- Backtracking of `[^>]*title="([^"]*)"`: the greedy run prefers the
latest position before the first `>` where the title attribute matches. -/
def titleScan : List Char → Option (List Char)
  | [] => none
  | c :: cs =>
    if c = '>' then none
    else
      match titleScan cs with
      | some t => some t
      | none => tryTitleAt (c :: cs)

/-- First match of `/<boltArtifact[^>]*title="([^"]*)"/` over the buffer. -/
def findArtifactTitle : List Char → Option String
  | [] => none
  | l@(_ :: cs) =>
    match expectLit "<boltArtifact".data l with
    | .ok _ r =>
      (match titleScan r with
       | some t => some (String.mk t)
       | none => findArtifactTitle cs)
    | _ => findArtifactTitle cs

/-! ### Steps and the step queue (`appendSteps`) -/

/-- `StepType` from the repository's types. -/
inductive StepType where
  | CreateFile
  | CreateFolder
  | EditFile
  | DeleteFile
  | RunScript
  deriving DecidableEq, Repr

/-- The string value of each enum member. -/
def stepTypeStr : StepType → String
  | .CreateFile => "CreateFile"
  | .CreateFolder => "CreateFolder"
  | .EditFile => "EditFile"
  | .DeleteFile => "DeleteFile"
  | .RunScript => "RunScript"

inductive StepStatus where
  | pending
  | inProgress
  | completed
  deriving DecidableEq, Repr

structure Step where
  id : Nat
  title : String
  description : String
  type : StepType
  status : StepStatus
  code : Option String := none
  path : Option String := none
  deriving DecidableEq, Repr

structure IncomingStep where
  title : String
  description : String
  type : StepType
  code : Option String := none
  path : Option String := none
  deriving DecidableEq, Repr

/-- The dedup key ``` `${step.type}|${step.title}|${step.path ?? ''}` ```. -/
def stepKeyStr (s : Step) : String :=
  stepTypeStr s.type ++ "|" ++ s.title ++ "|" ++ s.path.getD ""

/-- The same key computed for a candidate step. -/
def incomingKeyStr (e : IncomingStep) : String :=
  stepTypeStr e.type ++ "|" ++ e.title ++ "|" ++ e.path.getD ""

/-- The loop body of `appendSteps`: walk the candidates, skip any whose key
is already seen, assign sequential ids to the rest. -/
def appendGo (seen : List String) (nextId : Nat) : List IncomingStep → List Step
  | [] => []
  | e :: es =>
    if incomingKeyStr e ∈ seen then appendGo seen nextId es
    else
      { id := nextId, title := e.title, description := e.description,
        type := e.type, status := .pending, code := e.code, path := e.path } ::
        appendGo (incomingKeyStr e :: seen) (nextId + 1) es

/-- `appendSteps`: dedup against the existing queue and append, ids starting
from the last existing id plus one (else 1). -/
def appendSteps (prev : List Step) (incoming : List IncomingStep) : List Step :=
  prev ++
    appendGo (prev.map stepKeyStr)
      (match prev.getLast? with
       | some s => s.id + 1
       | none => 1)
      incoming

/-! ### The stream handler state -/

/-- JavaScript `String.prototype.trim` on a character list. -/
def trimChars (l : List Char) : List Char :=
  ((l.dropWhile wsChar).reverse.dropWhile wsChar).reverse

def jsTrim (s : String) : String := String.mk (trimChars s.data)

/-- The dedup key ``` `${match.index}-${type}-${filePath}` ``` recorded in
`processedActionKeysRef`. -/
def actionKeyStr (d : RawDirective) : String :=
  Nat.repr d.offset ++ "-" ++ d.kind ++ "-" ++ d.filePath.getD ""

/-- The candidate step built from one new regex match: `type="file"` gives a
CreateFile step, `type="shell"` a RunScript step, anything else nothing. -/
def directiveStep (d : RawDirective) : Option IncomingStep :=
  if d.kind = "file" then
    some { title := "Create " ++ (if d.filePath.getD "" = "" then "file" else d.filePath.getD ""),
           description := "", type := .CreateFile, code := some (jsTrim d.body),
           path := some (d.filePath.getD "") }
  else if d.kind = "shell" then
    some { title := "Run command", description := "", type := .RunScript,
           code := some (jsTrim d.body) }
  else none

/-- Filter matches whose key was already processed, record the new keys, and
build the candidate steps for the rest. -/
def dedupDirectives (keys : List String) : List RawDirective → List String × List IncomingStep
  | [] => (keys, [])
  | d :: ds =>
    if actionKeyStr d ∈ keys then dedupDirectives keys ds
    else
      let res := dedupDirectives (actionKeyStr d :: keys) ds
      (res.1, (directiveStep d).toList ++ res.2)

/-- The per-response mutable state `handleStreamBuffer` reads and writes:
the artifact-step flag, the processed directive keys, and the step queue. -/
structure StreamState where
  artifactAdded : Bool
  processedKeys : List String
  steps : List Step
  deriving DecidableEq, Repr

/-- `handleStreamBuffer`: add the CreateFolder step for the first artifact
title seen, then extract and dedup action directives and append their
steps. -/
def handleStreamBuffer (st : StreamState) (buffer : List Char) : StreamState :=
  let st1 :=
    if st.artifactAdded then st
    else
      match findArtifactTitle buffer with
      | some t =>
        { st with
          artifactAdded := true
          steps := appendSteps st.steps
            [{ title := if t = "" then "Project Files" else t, description := "",
               type := .CreateFolder }] }
      | none => st
  let res := dedupDirectives st1.processedKeys (scanActions buffer).1
  { st1 with processedKeys := res.1, steps := appendSteps st1.steps res.2 }

/-! ### The sandbox command runner (`runShellCommands`) -/

/-- `split('\n')`. -/
def splitNl : List Char → List (List Char)
  | [] => [[]]
  | c :: rest =>
    if c = '\n' then [] :: splitNl rest
    else
      match splitNl rest with
      | [] => [[c]]
      | s :: ss => (c :: s) :: ss

/-- `split('&&')`. -/
def splitAmpAmp : List Char → List (List Char)
  | [] => [[]]
  | '&' :: '&' :: rest => [] :: splitAmpAmp rest
  | c :: rest =>
    match splitAmpAmp rest with
    | [] => [[c]]
    | s :: ss => (c :: s) :: ss

/-- `commandBlock.split('\n').flatMap(l => l.split('&&')).map(trim).filter(Boolean)`. -/
def parseCommands (block : String) : List String :=
  ((((splitNl block.data).flatMap splitAmpAmp).map trimChars).filter (· ≠ [])).map String.mk

def startsWithChars : List Char → List Char → Bool
  | [], _ => true
  | _ :: _, [] => false
  | p :: ps, c :: cs => if c = p then startsWithChars ps cs else false

def strStartsWith (s pre : String) : Bool := startsWithChars pre.data s.data

def lowerChars (l : List Char) : List Char := l.map Char.toLower

/-- `\b` after a literal word: the next character is not a word character. -/
def wordBoundary (l : List Char) : Bool :=
  match l with
  | [] => true
  | c :: _ => !(c.isAlphanum || c = '_')

/-- `\s+` at the head, returning what follows the run. -/
def wsDrop1 : List Char → Option (List Char)
  | [] => none
  | c :: cs => if wsChar c then some (cs.dropWhile wsChar) else none

/-- `/^npm\s+word\b/i` for a fixed lowercase word. -/
def npmWordTest (word : String) (c : String) : Bool :=
  match lowerChars c.data with
  | 'n' :: 'p' :: 'm' :: rest =>
    (match wsDrop1 rest with
     | some r => startsWithChars word.data r && wordBoundary (r.drop word.data.length)
     | none => false)
  | _ => false

def npmInitTest (c : String) : Bool := npmWordTest "init" c

def npmCreateTest (c : String) : Bool := npmWordTest "create" c

/-- `/^npm\s+(install|run)\b/i`. -/
def npmInstallRunTest (c : String) : Bool :=
  npmWordTest "install" c || npmWordTest "run" c

/-- Scan for `\binit\b` given the character preceding the current position. -/
def containsWordInit : Char → List Char → Bool
  | _, [] => false
  | prev, c :: cs =>
    (!(prev.isAlphanum || prev = '_') &&
      startsWithChars "init".data (c :: cs) &&
      wordBoundary ((c :: cs).drop 4)) ||
    containsWordInit c cs

/-- `/^npx\s+tailwindcss\b.*\binit\b/i`. -/
def tailwindInitTest (c : String) : Bool :=
  match lowerChars c.data with
  | 'n' :: 'p' :: 'x' :: rest =>
    (match wsDrop1 rest with
     | some r =>
       startsWithChars "tailwindcss".data r && wordBoundary (r.drop 11) &&
         containsWordInit 's' (r.drop 11)
     | none => false)
  | _ => false

/-- `/^npm\s+(init|install|create)/` (case-sensitive, no boundary), the test
guarding the post-command manifest re-read. -/
def npmPostManifestTest (c : String) : Bool :=
  match c.data with
  | 'n' :: 'p' :: 'm' :: rest =>
    (match wsDrop1 rest with
     | some r =>
       startsWithChars "init".data r || startsWithChars "install".data r ||
         startsWithChars "create".data r
     | none => false)
  | _ => false

/-- `command.replace(/^cd\s+/, '').trim()` for a command starting `cd `. -/
def cdTarget (c : String) : String :=
  jsTrim (String.mk ((c.data.drop 2).dropWhile wsChar))

/-- `changeDirectory` from `runShellCommands`: absolute reset on a leading
slash, then `..` pops, `.` is skipped, anything else is pushed. -/
def changeDirectory (segs : List String) (target : String) : List String :=
  let start := if strStartsWith target "/" then [] else segs
  (splitSegs target).foldl
    (fun acc seg =>
      if seg = ".." then acc.dropLast else if seg = "." then acc else acc ++ [seg])
    start

/-- The working-directory update exactly as the claim words it: a leading `/`
first resets the segments to empty, then each `/`-separated segment of the
target is applied in order, `..` popping, `.` doing nothing, and any other
segment being pushed. -/
def cdSpec (segs : List String) (target : String) : List String :=
  let start := if strStartsWith target "/" then [] else segs
  (splitSegs target).foldl
    (fun acc seg =>
      if seg = ".." then acc.dropLast else if seg = "." then acc else acc ++ [seg])
    start

/-- `getCwd()`: the joined segments, `"."` when empty. -/
def getCwdStr (segs : List String) : String :=
  if segs = [] then "." else String.intercalate "/" segs

/-- `command.split(/\s+/)` on an already-trimmed command. -/
def wordsAux (cur : List Char) : List Char → List (List Char)
  | [] => if cur = [] then [] else [cur.reverse]
  | c :: cs =>
    if wsChar c then
      if cur = [] then wordsAux [] cs else cur.reverse :: wordsAux [] cs
    else wordsAux (c :: cur) cs

def splitWsWords (s : String) : List String := (wordsAux [] s.data).map String.mk

/-- One process spawn observed at the sandbox boundary. -/
structure SpawnCall where
  program : String
  args : List String
  cwd : String
  deriving DecidableEq, Repr

/-- Observable effects of processing one command line. -/
inductive RunEvent where
  | spawned (cmd : String) (call : SpawnCall) (exitCode : Int)
  | skippedDev (cmd : String)
  | skippedNpmInit (cmd : String)
  | skippedNpmCreate (cmd : String)
  | skippedTailwindInit (cmd : String)
  | changedDir (cmd : String)
  | ensuredManifest (cwd : String)
  | readManifest (cwd : String)
  deriving DecidableEq, Repr

/-- Result of one loop iteration: continue with updated segments, or abort
the script (a spawned command exited non-zero and the runner threw). -/
inductive CmdOutcome where
  | next (segs : List String) (events : List RunEvent)
  | aborted (events : List RunEvent)
  deriving DecidableEq, Repr

/-- The body of the `for (const command of commands)` loop, with the sandbox
abstracted as an exit-code oracle for spawned processes. -/
def stepCmd (exit : SpawnCall → Int) (segs : List String) (c : String) : CmdOutcome :=
  if strStartsWith c "cd " then .next (changeDirectory segs (cdTarget c)) [.changedDir c]
  else if strStartsWith c "npm run dev" then .next segs [.skippedDev c]
  else if npmInitTest c then .next segs [.skippedNpmInit c]
  else if npmCreateTest c then .next segs [.skippedNpmCreate c]
  else if tailwindInitTest c then .next segs [.skippedTailwindInit c]
  else
    let pre : List RunEvent :=
      if npmInstallRunTest c then [.ensuredManifest (getCwdStr segs)] else []
    let parts := splitWsWords c
    let program := parts.headD ""
    let args0 := parts.tail
    let args :=
      if program = "npm" && args0.headD "" = "create"
          && !(args0.contains "--yes" || args0.contains "-y") then
        "create" :: "--yes" :: args0.tail
      else args0
    let call : SpawnCall := { program := program, args := args, cwd := getCwdStr segs }
    let code := exit call
    if code ≠ 0 then .aborted (pre ++ [.spawned c call code])
    else
      let post : List RunEvent :=
        if npmPostManifestTest c then [.readManifest (getCwdStr segs)] else []
      .next segs (pre ++ [.spawned c call code] ++ post)

/-- Fold the loop body over the command list, aborting on the first failed
spawn (fail-fast within one script). -/
def runCmds (exit : SpawnCall → Int) (segs : List String) :
    List String → List String × List RunEvent × Bool
  | [] => (segs, [], false)
  | c :: cs =>
    match stepCmd exit segs c with
    | .next segs' evs =>
      let res := runCmds exit segs' cs
      (res.1, evs ++ res.2.1, res.2.2)
    | .aborted evs => (segs, evs, true)

/-- The persisted outcome of `runShellCommands`: the value of `cwdRef` after
the call, the observable events, and whether the runner threw. -/
structure RunResult where
  cwdRef : String
  events : List RunEvent
  failed : Bool
  deriving DecidableEq, Repr

/-- `runShellCommands`: seed the segment stack from the persisted logical
cwd, run the commands, and persist the final cwd only when no command
failed (a throw skips the final assignment to `cwdRef`). -/
def runShellCommands (exit : SpawnCall → Int) (cwd0 : String) (block : String) :
    RunResult :=
  match runCmds exit (if cwd0 = "" then [] else splitSegs cwd0) (parseCommands block) with
  | (_, evs, true) => { cwdRef := cwd0, events := evs, failed := true }
  | (segsF, evs, false) =>
    { cwdRef := if getCwdStr segsF = "." then "" else getCwdStr segsF,
      events := evs, failed := false }

/-! ### The orchestrator effects over the step queue -/

/-- The first pending RunScript step with its index (`steps.findIndex`). -/
def firstPendingScript : List Step → Option (Nat × Step)
  | [] => none
  | s :: ss =>
    if s.type = .RunScript ∧ s.status = .pending then some (0, s)
    else (firstPendingScript ss).map (fun p => (p.1 + 1, p.2))

/-- The RunScript effect: run the first pending script step's code and mark
the step completed whether the runner succeeded or threw (the catch branch
logs and still marks completed). -/
def scriptTick (exit : SpawnCall → Int) (steps : List Step) (cwd : String) :
    List Step × String × List RunEvent :=
  match firstPendingScript steps with
  | none => (steps, cwd, [])
  | some (i, s) =>
    let r := runShellCommands exit cwd (s.code.getD "")
    (steps.set i { s with status := .completed }, r.cwdRef, r.events)

/-- The file-step effect: every pending CreateFolder or CreateFile step is
marked completed; a CreateFile whose staging fails only changes the log
line emitted (the catch branch still marks the step completed). -/
def fileTick (stageOk : Step → Bool) (steps : List Step) :
    List Step × List String :=
  (steps.map (fun s =>
     if s.status = .pending ∧ (s.type = .CreateFolder ∨ s.type = .CreateFile) then
       { s with status := .completed }
     else s),
   steps.foldr (fun s acc =>
     (if s.status = .pending ∧ s.type = .CreateFile then
        [if stageOk s then "✓ File created: " ++ s.path.getD ""
         else "ERROR: Failed to create " ++ s.path.getD "file"]
      else []) ++ acc) [])

/-! ### Concrete inputs used by scenarios, counterexamples and witnesses -/

/-- A sibling list with duplicate `path` fields (not reachable by upserts). -/
def c3cxTree : List FileItem := [.folder "z" "a" [], .folder "b" "a" []]

def c4cxPrev : List Step :=
  [{ id := 1, title := "x|y", description := "", type := .CreateFile,
     status := .pending, code := none, path := some "z" }]

def c4cxInc : List IncomingStep :=
  [{ title := "x", description := "", type := .CreateFile, path := some "y|z" },
   { title := "x", description := "", type := .CreateFile, path := some "y|z" }]

/-- A buffer whose unterminated first action tag swallows a later complete
match once the stream completes the tag. -/
def c5cxB1 : List Char :=
  "<boltAction type=\"<boltAction type=\" filePath=\">npm i</boltAction>".data

def c5cxSuffix : List Char := "\"></boltAction>".data

/-- The Scenario A buffer: one artifact titled "Todo App" with one file
action and one shell action. -/
def scenarioABuffer : List Char :=
  ("<boltArtifact title=\"Todo App\">" ++
   "<boltAction type=\"file\" filePath=\"src/App.tsx\">export default App;</boltAction>" ++
   "<boltAction type=\"shell\">npm install</boltAction>" ++
   "</boltArtifact>").data

/-- Fresh per-response stream state. -/
def freshStream : StreamState :=
  { artifactAdded := false, processedKeys := [], steps := [] }

/-- The exit-code oracle where every command succeeds. -/
def oracleZero : SpawnCall → Int := fun _ => 0


/-! ### Lemmas and theorems -/

theorem lexLe_total : ∀ a b : List Char, lexLe a b = true ∨ lexLe b a = true := by
  intro a
  induction a with
  | nil => intro b; left; rfl
  | cons x xs ih =>
    intro b
    cases b with
    | nil => right; rfl
    | cons y ys =>
      by_cases hxy : x = y
      · subst hxy
        simp only [lexLe, if_pos rfl]
        exact ih ys
      · rcases lt_trichotomy x y with h | h | h
        · left; simp [lexLe, hxy, h]
        · exact absurd h hxy
        · right
          have hyx : ¬ y = x := fun hh => hxy hh.symm
          simp only [lexLe, if_neg hyx]
          exact decide_eq_true h

theorem lexLe_trans : ∀ a b c : List Char,
    lexLe a b = true → lexLe b c = true → lexLe a c = true := by
  intro a
  induction a with
  | nil => intro b c _ _; rfl
  | cons x xs ih =>
    intro b c h1 h2
    cases b with
    | nil => simp [lexLe] at h1
    | cons y ys =>
      cases c with
      | nil => simp [lexLe] at h2
      | cons z zs =>
        by_cases hxy : x = y <;> by_cases hyz : y = z
        · subst hxy; subst hyz
          simp only [lexLe, if_pos rfl] at h1 h2 ⊢
          exact ih ys zs h1 h2
        · subst hxy
          simp only [lexLe, if_neg hyz] at h2
          simp [lexLe, hyz, h2]
        · subst hyz
          simp only [lexLe, if_neg hxy] at h1
          simp [lexLe, hxy, h1]
        · simp only [lexLe, if_neg hxy] at h1
          simp only [lexLe, if_neg hyz] at h2
          have hlt : x < z := lt_trans (of_decide_eq_true h1) (of_decide_eq_true h2)
          have hxz : ¬ x = z := fun hh => absurd (hh ▸ hlt) (lt_irrefl z)
          simp only [lexLe, if_neg hxz]
          exact decide_eq_true hlt

theorem lexLe_antisymm : ∀ a b : List Char,
    lexLe a b = true → lexLe b a = true → a = b := by
  intro a
  induction a with
  | nil =>
    intro b _ h2
    cases b with
    | nil => rfl
    | cons y ys => simp [lexLe] at h2
  | cons x xs ih =>
    intro b h1 h2
    cases b with
    | nil => simp [lexLe] at h1
    | cons y ys =>
      by_cases hxy : x = y
      · subst hxy
        simp only [lexLe, if_pos rfl] at h1 h2
        rw [ih ys h1 h2]
      · simp only [lexLe, if_neg hxy] at h1
        simp only [lexLe, if_neg (fun hh : y = x => hxy hh.symm)] at h2
        exact absurd (of_decide_eq_true h2) (lt_asymm (of_decide_eq_true h1))

theorem nameLe_total (a b : String) : nameLe a b = true ∨ nameLe b a = true :=
  lexLe_total a.data b.data

theorem nameLe_trans {a b c : String} (h1 : nameLe a b = true)
    (h2 : nameLe b c = true) : nameLe a c = true :=
  lexLe_trans a.data b.data c.data h1 h2

theorem nameLe_antisymm {a b : String} (h1 : nameLe a b = true)
    (h2 : nameLe b a = true) : a = b := by
  have hd := lexLe_antisymm a.data b.data h1 h2
  cases a; cases b; exact congrArg String.mk hd

@[instance] theorem nodeRel_total : IsTotal FileItem nodeRel := by
  constructor
  intro a b
  unfold nodeRel nodeLe
  by_cases h : a.isFolder = b.isFolder
  · rw [if_pos h, if_pos h.symm]
    exact nameLe_total a.name b.name
  · rcases ha : a.isFolder with _ | _ <;> rcases hb : b.isFolder with _ | _ <;>
      simp_all

@[instance] theorem nodeRel_trans : IsTrans FileItem nodeRel := by
  constructor
  intro a b c h1 h2
  unfold nodeRel nodeLe at h1 h2 ⊢
  by_cases hab : a.isFolder = b.isFolder <;> by_cases hbc : b.isFolder = c.isFolder
  · rw [if_pos hab] at h1
    rw [if_pos hbc] at h2
    rw [if_pos (hab.trans hbc)]
    exact nameLe_trans h1 h2
  · rw [if_neg hbc] at h2
    rw [if_neg (fun h => hbc (hab.symm.trans h))]
    rw [hab]; exact h2
  · rw [if_neg hab] at h1
    rw [if_neg (fun h => hab (h.trans hbc.symm))]
    exact h1
  · rcases ha : a.isFolder with _ | _ <;> rcases hb : b.isFolder with _ | _ <;>
      rcases hc : c.isFolder with _ | _ <;> simp_all

/-- Two nodes that tie under the comparator have the same kind and name. -/
theorem nodeLe_tie {a b : FileItem} (h1 : nodeLe a b = true)
    (h2 : nodeLe b a = true) : a.isFolder = b.isFolder ∧ a.name = b.name := by
  unfold nodeLe at h1 h2
  by_cases h : a.isFolder = b.isFolder
  · rw [if_pos h] at h1
    rw [if_pos h.symm] at h2
    exact ⟨h, nameLe_antisymm h1 h2⟩
  · rw [if_neg h] at h1
    rw [if_neg (fun hh => h hh.symm)] at h2
    exact absurd (h1.trans h2.symm) h

/-! ### Extension lemmas: a parse decided inside the buffer is stable when
the buffer grows at the end -/

theorem expectLit_append_ok {e l r s : List Char} {v : Unit}
    (h : expectLit e l = .ok v r) : expectLit e (l ++ s) = .ok v (r ++ s) := by
  induction e generalizing l with
  | nil =>
    rw [expectLit] at h
    cases h
    rw [expectLit]
  | cons x es ih =>
    cases l with
    | nil => rw [expectLit] at h; cases h
    | cons c cs =>
      rw [expectLit] at h
      rw [List.cons_append, expectLit]
      by_cases hc : c = x
      · rw [if_pos hc] at h ⊢
        exact ih h
      · rw [if_neg hc] at h
        cases h

theorem expectLit_append_fail {e l s : List Char}
    (h : expectLit e l = .fail) : expectLit e (l ++ s) = .fail := by
  induction e generalizing l with
  | nil => rw [expectLit] at h; cases h
  | cons x es ih =>
    cases l with
    | nil => rw [expectLit] at h; cases h
    | cons c cs =>
      rw [expectLit] at h
      rw [List.cons_append, expectLit]
      by_cases hc : c = x
      · rw [if_pos hc] at h ⊢
        exact ih h
      · rw [if_neg hc] at h ⊢

theorem wsGo_append_ok {l r s : List Char} {v : Unit}
    (h : wsGo l = .ok v r) : wsGo (l ++ s) = .ok v (r ++ s) := by
  induction l with
  | nil => rw [wsGo] at h; cases h
  | cons c cs ih =>
    rw [wsGo] at h
    rw [List.cons_append, wsGo]
    by_cases hc : wsChar c = true
    · rw [if_pos hc] at h ⊢
      exact ih h
    · rw [if_neg hc] at h ⊢
      cases h
      rw [List.cons_append]

theorem wsGo_ne_fail : ∀ l : List Char, wsGo l ≠ .fail := by
  intro l
  induction l with
  | nil => rw [wsGo]; simp
  | cons c cs ih =>
    rw [wsGo]
    by_cases hc : wsChar c = true
    · rw [if_pos hc]; exact ih
    · rw [if_neg hc]; simp

theorem wsPlus_append_ok {l r s : List Char} {v : Unit}
    (h : wsPlus l = .ok v r) : wsPlus (l ++ s) = .ok v (r ++ s) := by
  cases l with
  | nil => rw [wsPlus] at h; cases h
  | cons c cs =>
    rw [wsPlus] at h
    rw [List.cons_append, wsPlus]
    by_cases hc : wsChar c = true
    · rw [if_pos hc] at h ⊢
      exact wsGo_append_ok h
    · rw [if_neg hc] at h
      cases h

theorem wsPlus_append_fail {l s : List Char}
    (h : wsPlus l = .fail) : wsPlus (l ++ s) = .fail := by
  cases l with
  | nil => rw [wsPlus] at h; cases h
  | cons c cs =>
    rw [wsPlus] at h
    rw [List.cons_append, wsPlus]
    by_cases hc : wsChar c = true
    · rw [if_pos hc] at h
      exact absurd h (wsGo_ne_fail cs)
    · rw [if_neg hc] at h ⊢

theorem untilQuote_append_ok {l v r s : List Char}
    (h : untilQuote l = .ok v r) : untilQuote (l ++ s) = .ok v (r ++ s) := by
  induction l generalizing v with
  | nil => rw [untilQuote] at h; cases h
  | cons c cs ih =>
    rw [untilQuote] at h
    rw [List.cons_append, untilQuote]
    by_cases hc : c = '"'
    · rw [if_pos hc] at h ⊢
      cases h
      rfl
    · rw [if_neg hc] at h ⊢
      cases hu : untilQuote cs with
      | ok v' r' =>
        rw [hu] at h
        cases h
        rw [ih hu]
      | fail => rw [hu] at h; cases h
      | more => rw [hu] at h; cases h

theorem untilQuote_ne_fail : ∀ l : List Char, untilQuote l ≠ .fail := by
  intro l
  induction l with
  | nil => rw [untilQuote]; simp
  | cons c cs ih =>
    rw [untilQuote]
    by_cases hc : c = '"'
    · rw [if_pos hc]; simp
    · rw [if_neg hc]
      cases hu : untilQuote cs with
      | ok v' r' => simp
      | fail => exact absurd hu ih
      | more => simp

theorem findClose_append_ok {l v r s : List Char}
    (h : findClose l = .ok v r) : findClose (l ++ s) = .ok v (r ++ s) := by
  induction l generalizing v with
  | nil => rw [findClose] at h; cases h
  | cons c cs ih =>
    rw [findClose] at h
    rw [List.cons_append, findClose]
    cases he : expectLit "</boltAction>".data (c :: cs) with
    | ok u r' =>
      rw [he] at h
      cases h
      have he2 := expectLit_append_ok (s := s) he
      rw [List.cons_append] at he2
      rw [he2]
    | more => rw [he] at h; cases h
    | fail =>
      rw [he] at h
      have hef := expectLit_append_fail (s := s) he
      rw [List.cons_append] at hef
      rw [hef]
      cases hf : findClose cs with
      | ok b r' =>
        rw [hf] at h
        cases h
        rw [ih hf]
      | fail => rw [hf] at h; cases h
      | more => rw [hf] at h; cases h

theorem findClose_ne_fail : ∀ l : List Char, findClose l ≠ .fail := by
  intro l
  induction l with
  | nil => rw [findClose]; simp
  | cons c cs ih =>
    rw [findClose]
    cases he : expectLit "</boltAction>".data (c :: cs) with
    | ok u r' => simp
    | more => simp
    | fail =>
      cases hf : findClose cs with
      | ok b r' => simp
      | fail => exact absurd hf ih
      | more => simp

theorem parseFilePathAttr_append_ok {l v r s : List Char}
    (h : parseFilePathAttr l = .ok v r) :
    parseFilePathAttr (l ++ s) = .ok v (r ++ s) := by
  rw [parseFilePathAttr] at h ⊢
  cases h1 : wsPlus l with
  | fail => rw [h1] at h; cases h
  | more => rw [h1] at h; cases h
  | ok u r1 =>
    rw [h1] at h
    rw [wsPlus_append_ok h1]
    dsimp only at h ⊢
    cases h2 : expectLit "filePath=\"".data r1 with
    | fail => rw [h2] at h; cases h
    | more => rw [h2] at h; cases h
    | ok u2 r2 =>
      rw [h2] at h
      rw [expectLit_append_ok h2]
      dsimp only at h ⊢
      cases h3 : untilQuote r2 with
      | fail => rw [h3] at h; cases h
      | more => rw [h3] at h; cases h
      | ok p r3 =>
        rw [h3] at h
        rw [untilQuote_append_ok h3]
        dsimp only at h ⊢
        cases h4 : expectLit ">".data r3 with
        | fail => rw [h4] at h; cases h
        | more => rw [h4] at h; cases h
        | ok u4 r4 =>
          rw [h4] at h
          rw [expectLit_append_ok h4]
          cases h
          rfl

theorem parseFilePathAttr_append_fail {l s : List Char}
    (h : parseFilePathAttr l = .fail) : parseFilePathAttr (l ++ s) = .fail := by
  rw [parseFilePathAttr] at h ⊢
  cases h1 : wsPlus l with
  | more => rw [h1] at h; cases h
  | fail => rw [wsPlus_append_fail h1]
  | ok u r1 =>
    rw [h1] at h
    rw [wsPlus_append_ok h1]
    dsimp only at h ⊢
    cases h2 : expectLit "filePath=\"".data r1 with
    | more => rw [h2] at h; cases h
    | fail => rw [expectLit_append_fail h2]
    | ok u2 r2 =>
      rw [h2] at h
      rw [expectLit_append_ok h2]
      dsimp only at h ⊢
      cases h3 : untilQuote r2 with
      | more => rw [h3] at h; cases h
      | fail => exact absurd h3 (untilQuote_ne_fail r2)
      | ok p r3 =>
        rw [h3] at h
        rw [untilQuote_append_ok h3]
        dsimp only at h ⊢
        cases h4 : expectLit ">".data r3 with
        | more => rw [h4] at h; cases h
        | fail => rw [expectLit_append_fail h4]
        | ok u4 r4 =>
          rw [h4] at h
          cases h

theorem parseAction_append_ok {l s : List Char} {v : String × Option String × String}
    {r : List Char} (h : parseAction l = .ok v r) :
    parseAction (l ++ s) = .ok v (r ++ s) := by
  rw [parseAction] at h ⊢
  cases h1 : expectLit "<boltAction".data l with
  | fail => rw [h1] at h; cases h
  | more => rw [h1] at h; cases h
  | ok u r1 =>
    rw [h1] at h
    rw [expectLit_append_ok h1]
    dsimp only at h ⊢
    cases h2 : wsPlus r1 with
    | fail => rw [h2] at h; cases h
    | more => rw [h2] at h; cases h
    | ok u2 r2 =>
      rw [h2] at h
      rw [wsPlus_append_ok h2]
      dsimp only at h ⊢
      cases h3 : expectLit "type=\"".data r2 with
      | fail => rw [h3] at h; cases h
      | more => rw [h3] at h; cases h
      | ok u3 r3 =>
        rw [h3] at h
        rw [expectLit_append_ok h3]
        dsimp only at h ⊢
        cases h4 : untilQuote r3 with
        | fail => rw [h4] at h; cases h
        | more => rw [h4] at h; cases h
        | ok ty r4 =>
          rw [h4] at h
          rw [untilQuote_append_ok h4]
          dsimp only at h ⊢
          cases h5 : parseFilePathAttr r4 with
          | ok p r5 =>
            rw [h5] at h
            rw [parseFilePathAttr_append_ok h5]
            dsimp only at h ⊢
            cases h6 : findClose r5 with
            | fail => exact absurd h6 (findClose_ne_fail r5)
            | more => rw [h6] at h; cases h
            | ok b r6 =>
              rw [h6] at h
              rw [findClose_append_ok h6]
              cases h
              rfl
          | more => rw [h5] at h; cases h
          | fail =>
            rw [h5] at h
            rw [parseFilePathAttr_append_fail h5]
            dsimp only at h ⊢
            cases h6 : expectLit ">".data r4 with
            | fail => rw [h6] at h; cases h
            | more => rw [h6] at h; cases h
            | ok u6 r5 =>
              rw [h6] at h
              rw [expectLit_append_ok h6]
              dsimp only at h ⊢
              cases h7 : findClose r5 with
              | fail => exact absurd h7 (findClose_ne_fail r5)
              | more => rw [h7] at h; cases h
              | ok b r6 =>
                rw [h7] at h
                rw [findClose_append_ok h7]
                cases h
                rfl

theorem parseAction_append_fail {l s : List Char}
    (h : parseAction l = .fail) : parseAction (l ++ s) = .fail := by
  rw [parseAction] at h ⊢
  cases h1 : expectLit "<boltAction".data l with
  | more => rw [h1] at h; cases h
  | fail => rw [expectLit_append_fail h1]
  | ok u r1 =>
    rw [h1] at h
    rw [expectLit_append_ok h1]
    dsimp only at h ⊢
    cases h2 : wsPlus r1 with
    | more => rw [h2] at h; cases h
    | fail => rw [wsPlus_append_fail h2]
    | ok u2 r2 =>
      rw [h2] at h
      rw [wsPlus_append_ok h2]
      dsimp only at h ⊢
      cases h3 : expectLit "type=\"".data r2 with
      | more => rw [h3] at h; cases h
      | fail => rw [expectLit_append_fail h3]
      | ok u3 r3 =>
        rw [h3] at h
        rw [expectLit_append_ok h3]
        dsimp only at h ⊢
        cases h4 : untilQuote r3 with
        | more => rw [h4] at h; cases h
        | fail => exact absurd h4 (untilQuote_ne_fail r3)
        | ok ty r4 =>
          rw [h4] at h
          rw [untilQuote_append_ok h4]
          dsimp only at h ⊢
          cases h5 : parseFilePathAttr r4 with
          | ok p r5 =>
            rw [h5] at h
            rw [parseFilePathAttr_append_ok h5]
            dsimp only at h ⊢
            cases h6 : findClose r5 with
            | fail => exact absurd h6 (findClose_ne_fail r5)
            | more => rw [h6] at h; cases h
            | ok b r6 => rw [h6] at h; cases h
          | more => rw [h5] at h; cases h
          | fail =>
            rw [h5] at h
            rw [parseFilePathAttr_append_fail h5]
            dsimp only at h ⊢
            cases h6 : expectLit ">".data r4 with
            | more => rw [h6] at h; cases h
            | fail => rw [expectLit_append_fail h6]
            | ok u6 r5 =>
              rw [h6] at h
              rw [expectLit_append_ok h6]
              dsimp only at h ⊢
              cases h7 : findClose r5 with
              | fail => exact absurd h7 (findClose_ne_fail r5)
              | more => rw [h7] at h; cases h
              | ok b r6 => rw [h7] at h; cases h

/-- The scan of a buffer with no unterminated tag is a prefix of the scan of
any extension of that buffer. -/
theorem scanGo_append (s : List Char) : ∀ (l : List Char) (pos skip : Nat),
    (scanGo l pos skip).2 = false →
    ∃ t, (scanGo (l ++ s) pos skip).1 = (scanGo l pos skip).1 ++ t := by
  intro l
  induction l with
  | nil =>
    intro pos skip _
    refine ⟨(scanGo s pos skip).1, ?_⟩
    rw [scanGo]
    simp
  | cons c cs ih =>
    intro pos skip h
    cases skip with
    | succ k =>
      have e1 : scanGo (c :: cs) pos (k + 1) = scanGo cs (pos + 1) k := by
        rw [scanGo]
      have e2 : scanGo ((c :: cs) ++ s) pos (k + 1) = scanGo (cs ++ s) (pos + 1) k := by
        rw [List.cons_append, scanGo]
      rw [e1] at h ⊢
      rw [e2]
      exact ih (pos + 1) k h
    | zero =>
      cases hp : parseAction (c :: cs) with
      | ok d rest =>
        have hp2 := parseAction_append_ok (s := s) hp
        rw [List.cons_append] at hp2
        have hlen : (c :: (cs ++ s)).length - (rest ++ s).length =
            (c :: cs).length - rest.length := by
          simp only [List.length_cons, List.length_append]
          omega
        have e1 : scanGo (c :: cs) pos 0 =
            ({ offset := pos, kind := d.1, filePath := d.2.1, body := d.2.2 } ::
              (scanGo cs (pos + 1) ((c :: cs).length - rest.length - 1)).1,
             (scanGo cs (pos + 1) ((c :: cs).length - rest.length - 1)).2) := by
          rw [scanGo, hp]
        have e2 : scanGo ((c :: cs) ++ s) pos 0 =
            ({ offset := pos, kind := d.1, filePath := d.2.1, body := d.2.2 } ::
              (scanGo (cs ++ s) (pos + 1) ((c :: cs).length - rest.length - 1)).1,
             (scanGo (cs ++ s) (pos + 1) ((c :: cs).length - rest.length - 1)).2) := by
          rw [List.cons_append, scanGo, hp2]
          dsimp only
          rw [hlen]
        rw [e1] at h ⊢
        rw [e2]
        dsimp only at h ⊢
        obtain ⟨t, ht⟩ := ih (pos + 1) ((c :: cs).length - rest.length - 1) h
        refine ⟨t, ?_⟩
        rw [ht]
        rfl
      | fail =>
        have hp2 := parseAction_append_fail (s := s) hp
        rw [List.cons_append] at hp2
        have e1 : scanGo (c :: cs) pos 0 = scanGo cs (pos + 1) 0 := by
          rw [scanGo, hp]
        have e2 : scanGo ((c :: cs) ++ s) pos 0 = scanGo (cs ++ s) (pos + 1) 0 := by
          rw [List.cons_append, scanGo, hp2]
        rw [e1] at h ⊢
        rw [e2]
        exact ih (pos + 1) 0 h
      | more =>
        have e1 : scanGo (c :: cs) pos 0 =
            ((scanGo cs (pos + 1) 0).1, true) := by
          rw [scanGo, hp]
        rw [e1] at h
        cases h

/-! ### Claim C5 -/

/-- C5 (amended): for all buffers B1 and B2 where B2 extends B1 at the end,
provided scanning B1 never runs off the end of the buffer mid-tag (no
unterminated action-tag occurrence), every directive extracted from B1 is
extracted from B2 with the same identity (offset, type, filePath) —
indeed the same match. As stated the claim is false; see the
counterexample theorem. -/
theorem c5_extraction_monotone_of_complete (l s : List Char) (d : RawDirective)
    (hflag : (scanActions l).2 = false) (hd : d ∈ (scanActions l).1) :
    d ∈ (scanActions (l ++ s)).1 := by
  obtain ⟨t, ht⟩ := scanGo_append s l 0 0 hflag
  unfold scanActions at hd ⊢
  rw [ht]
  exact List.mem_append_left t hd

/-- C5 witness: a concrete completely-received buffer whose shell directive
survives an extension of the buffer. -/
theorem c5_extraction_monotone_of_complete_witness :
    (scanActions "<boltAction type=\"shell\">npm i</boltAction>".data).2 = false ∧
    ({ offset := 0, kind := "shell", filePath := none, body := "npm i" } : RawDirective) ∈
      (scanActions ("<boltAction type=\"shell\">npm i</boltAction>".data ++ " done".data)).1 :=
  ⟨by decide,
   c5_extraction_monotone_of_complete
     "<boltAction type=\"shell\">npm i</boltAction>".data " done".data
     { offset := 0, kind := "shell", filePath := none, body := "npm i" }
     (by decide) (by decide)⟩

/-- C5 counterexample: the buffer `c5cxB1` ends inside an unterminated
action tag and already contains one complete (malformed-type) match with
identity key (18, " filePath=", ""); once the suffix `c5cxSuffix` arrives,
the completed first tag swallows that match, so the directives extracted
from the longer buffer are not a superset of those extracted from the
prefix under the (source offset, action type, file path) key. -/
theorem c5_counterexample :
    (scanActions c5cxB1).1 =
      [{ offset := 18, kind := " filePath=", filePath := none, body := "npm i" }] ∧
    (scanActions (c5cxB1 ++ c5cxSuffix)).1 =
      [{ offset := 0, kind := "<boltAction type=",
         filePath := some ">npm i</boltAction>", body := "" }] ∧
    ¬ (∀ d ∈ (scanActions c5cxB1).1, ∃ d' ∈ (scanActions (c5cxB1 ++ c5cxSuffix)).1,
        d'.offset = d.offset ∧ d'.kind = d.kind ∧
          d'.filePath.getD "" = d.filePath.getD "") := by
  decide

/-! ### Claim C1 -/

/-- C1: processing the Scenario A buffer (one artifact tag titled "Todo App",
one file action for src/App.tsx with body "export default App;", one shell
action "npm install") through stream-buffer extraction and step append
produces exactly three steps, in order CreateFolder "Todo App", CreateFile
src/App.tsx, RunScript "npm install", all initially pending. -/
theorem c1_scenarioA :
    (handleStreamBuffer freshStream scenarioABuffer).steps =
      [{ id := 1, title := "Todo App", description := "", type := .CreateFolder,
         status := .pending },
       { id := 2, title := "Create src/App.tsx", description := "",
         type := .CreateFile, status := .pending,
         code := some "export default App;", path := some "src/App.tsx" },
       { id := 3, title := "Run command", description := "", type := .RunScript,
         status := .pending, code := some "npm install" }] := by
  decide

/-! ### Claim C4 -/

/-- Key invariant of the `appendSteps` loop: the produced additions have
pairwise-distinct encoded keys, none of them already seen, the candidate
keys all end up covered, and the key of a produced step is the key of its
candidate. -/
theorem appendGo_keys (inc : List IncomingStep) : ∀ (seen : List String) (nid : Nat),
    ((appendGo seen nid inc).map stepKeyStr).Nodup ∧
    (∀ k ∈ (appendGo seen nid inc).map stepKeyStr, k ∉ seen) ∧
    (∀ e ∈ inc, incomingKeyStr e ∈ seen ∨
      incomingKeyStr e ∈ (appendGo seen nid inc).map stepKeyStr) := by
  induction inc with
  | nil =>
    intro seen nid
    refine ⟨by simp [appendGo], by simp [appendGo], by simp⟩
  | cons e es ih =>
    intro seen nid
    by_cases hmem : incomingKeyStr e ∈ seen
    · rw [appendGo, if_pos hmem]
      obtain ⟨h1, h2, h3⟩ := ih seen nid
      refine ⟨h1, h2, ?_⟩
      intro e' he'
      rcases List.mem_cons.1 he' with rfl | he'
      · exact Or.inl hmem
      · exact h3 e' he'
    · rw [appendGo, if_neg hmem]
      obtain ⟨h1, h2, h3⟩ := ih (incomingKeyStr e :: seen) (nid + 1)
      have hkey : stepKeyStr
          { id := nid, title := e.title, description := e.description,
            type := e.type, status := .pending, code := e.code, path := e.path } =
          incomingKeyStr e := rfl
      refine ⟨?_, ?_, ?_⟩
      · rw [List.map_cons, hkey]
        refine List.Pairwise.cons ?_ h1
        intro k hk
        exact fun he => (h2 k hk) (he ▸ List.mem_cons_self _ _)
      · rw [List.map_cons, hkey]
        intro k hk
        rcases List.mem_cons.1 hk with rfl | hk
        · exact hmem
        · exact fun hs => (h2 k hk) (List.mem_cons_of_mem _ hs)
      · intro e' he'
        rcases List.mem_cons.1 he' with rfl | he'
        · exact Or.inr (by rw [List.map_cons, hkey]; exact List.mem_cons_self _ _)
        · rcases h3 e' he' with hs | hs
          · rcases List.mem_cons.1 hs with heq | hs
            · exact Or.inr (by rw [List.map_cons, hkey]; exact heq ▸ List.mem_cons_self _ _)
            · exact Or.inl hs
          · exact Or.inr (by rw [List.map_cons, hkey]; exact List.mem_cons_of_mem _ hs)

/-- C4 (amended): for every step-queue state whose encoded keys
`type|title|path` are pairwise distinct and every candidate batch, the
append operation keeps the encoded keys pairwise distinct (hence the queue
never holds two steps with an identical (type, title, path) tuple), and
every candidate's encoded key is present in the resulting queue. As stated
("exactly one step with that tuple") the claim is false because the dedup
key is the string join, which can conflate distinct tuples; see the
counterexample theorem. -/
theorem c4_append_dedup (prev : List Step) (inc : List IncomingStep)
    (h : (prev.map stepKeyStr).Nodup) :
    ((appendSteps prev inc).map stepKeyStr).Nodup ∧
    ((appendSteps prev inc).Pairwise (fun s1 s2 =>
      ¬(s1.type = s2.type ∧ s1.title = s2.title ∧ s1.path = s2.path))) ∧
    (∀ e ∈ inc, incomingKeyStr e ∈ (appendSteps prev inc).map stepKeyStr) := by
  obtain ⟨h1, h2, h3⟩ := appendGo_keys inc (prev.map stepKeyStr)
    (match prev.getLast? with
     | some s => s.id + 1
     | none => 1)
  have hnodup : ((appendSteps prev inc).map stepKeyStr).Nodup := by
    unfold appendSteps
    rw [List.map_append]
    rw [List.nodup_append]
    exact ⟨h, h1, fun k hk hk2 => (h2 k hk2) hk⟩
  refine ⟨hnodup, ?_, ?_⟩
  · have hpw := (List.pairwise_map).1 hnodup
    refine hpw.imp ?_
    intro s1 s2 hne htup
    exact hne (by
      unfold stepKeyStr
      rw [htup.1, htup.2.1, htup.2.2])
  · intro e he
    unfold appendSteps
    rw [List.map_append]
    rcases h3 e he with hs | hs
    · exact List.mem_append_left _ hs
    · exact List.mem_append_right _ hs

/-- C4 witness: appending a fresh candidate to a well-keyed queue keeps keys
distinct and registers the candidate's key. -/
theorem c4_append_dedup_witness :
    ((appendSteps c4cxPrev
        [{ title := "a", description := "", type := .CreateFile, path := some "b" }]).map
          stepKeyStr).Nodup ∧
    incomingKeyStr { title := "a", description := "", type := .CreateFile, path := some "b" } ∈
      (appendSteps c4cxPrev
        [{ title := "a", description := "", type := .CreateFile, path := some "b" }]).map
          stepKeyStr := by
  obtain ⟨h1, _, h3⟩ := c4_append_dedup c4cxPrev
    [{ title := "a", description := "", type := .CreateFile, path := some "b" }]
    (by decide)
  exact ⟨h1, h3 _ (List.mem_cons_self _ _)⟩

/-- C4 counterexample: the queue holds one step with tuple
(CreateFile, "x|y", "z"); appending two candidates with the identical tuple
(CreateFile, "x", "y|z") leaves the queue unchanged, because all three
encode to the same string key "CreateFile|x|y|z" — so the queue ends with
zero (not exactly one) steps carrying the candidates' tuple. -/
theorem c4_counterexample :
    appendSteps c4cxPrev c4cxInc = c4cxPrev ∧
    c4cxInc.length = 2 ∧
    (∀ e ∈ c4cxInc, e.type = .CreateFile ∧ e.title = "x" ∧ e.path = some "y|z") ∧
    (appendSteps c4cxPrev c4cxInc).countP
      (fun s => s.type == StepType.CreateFile && s.title == "x" && s.path == some "y|z") = 0 := by
  decide

/-! ### Claims C6, C7, C9: the command runner -/

/-- Small indexing facts used by the orchestrator claims. -/
theorem get_set_eq {α : Type} : ∀ (l : List α) (i : Nat) (s x : α),
    l.get? i = some s → (l.set i x).get? i = some x := by
  intro l
  induction l with
  | nil => intro i s x h; cases i <;> cases h
  | cons a as ih =>
    intro i s x h
    cases i with
    | zero => rfl
    | succ k => exact ih k s x h

theorem get_set_ne {α : Type} : ∀ (l : List α) (i j : Nat) (x : α),
    j ≠ i → (l.set i x).get? j = l.get? j := by
  intro l
  induction l with
  | nil => intro i j x _; cases i <;> rfl
  | cons a as ih =>
    intro i j x hne
    cases i with
    | zero =>
      cases j with
      | zero => exact absurd rfl hne
      | succ k => rfl
    | succ k =>
      cases j with
      | zero => rfl
      | succ m => exact ih k m x (fun he => hne (by rw [he]))

theorem firstPendingScript_get : ∀ (steps : List Step) (i : Nat) (s : Step),
    firstPendingScript steps = some (i, s) →
    steps.get? i = some s ∧ s.type = .RunScript ∧ s.status = .pending := by
  intro steps
  induction steps with
  | nil => intro i s h; cases h
  | cons a as ih =>
    intro i s h
    rw [firstPendingScript] at h
    by_cases ha : a.type = StepType.RunScript ∧ a.status = StepStatus.pending
    · rw [if_pos ha] at h
      cases h
      exact ⟨rfl, ha⟩
    · rw [if_neg ha] at h
      cases hf : firstPendingScript as with
      | none => rw [hf] at h; cases h
      | some p =>
        rw [hf] at h
        cases h
        obtain ⟨h1, h2⟩ := ih p.1 p.2 hf
        exact ⟨h1, h2⟩

/-- A command-loop iteration that aborted did so on a spawned command whose
exit code was nonzero, and that spawn is its last event. -/
theorem stepCmd_aborted {exit : SpawnCall → Int} {segs : List String} {c : String}
    {evs : List RunEvent} (h : stepCmd exit segs c = .aborted evs) :
    ∃ pre call code, evs = pre ++ [RunEvent.spawned c call code] ∧ ¬ code = 0 := by
  unfold stepCmd at h
  dsimp only at h
  split_ifs at h
  all_goals cases h
  all_goals exact ⟨_, _, _, rfl, by assumption⟩

/-- An aborted command list: the events end at the failing spawn. -/
theorem runCmds_aborted (exit : SpawnCall → Int) : ∀ (cmds : List String) (segs : List String),
    (runCmds exit segs cmds).2.2 = true →
    ∃ evs c call code,
      (runCmds exit segs cmds).2.1 = evs ++ [RunEvent.spawned c call code] ∧ ¬ code = 0 := by
  intro cmds
  induction cmds with
  | nil => intro segs h; cases h
  | cons c cs ih =>
    intro segs h
    cases hs : stepCmd exit segs c with
    | next segs2 evs =>
      have e1 : runCmds exit segs (c :: cs) =
          ((runCmds exit segs2 cs).1, evs ++ (runCmds exit segs2 cs).2.1,
            (runCmds exit segs2 cs).2.2) := by
        rw [runCmds, hs]
      rw [e1] at h ⊢
      dsimp only at h ⊢
      obtain ⟨evs2, c2, call, code, he, hc⟩ := ih segs2 h
      refine ⟨evs ++ evs2, c2, call, code, ?_, hc⟩
      rw [he, List.append_assoc]
    | aborted evs =>
      have e1 : runCmds exit segs (c :: cs) = (segs, evs, true) := by
        rw [runCmds, hs]
      rw [e1]
      dsimp only
      obtain ⟨pre, call, code, he, hc⟩ := stepCmd_aborted hs
      exact ⟨pre, c, call, code, he, hc⟩

/-- C9: if any spawned command in a script exits nonzero, the runner throws
before the final cwd-persistence step, so the session's persisted logical
working directory is exactly what it was before the script started — even
when earlier `cd` lines had moved the script-local directory — and the
event trace stops at the failing spawn. -/
theorem c9_failed_script_preserves_cwd (exit : SpawnCall → Int) (cwd0 : String)
    (block : String) (h : (runShellCommands exit cwd0 block).failed = true) :
    (runShellCommands exit cwd0 block).cwdRef = cwd0 ∧
    ∃ evs c call code,
      (runShellCommands exit cwd0 block).events = evs ++ [RunEvent.spawned c call code] ∧
        ¬ code = 0 := by
  rcases hr : runCmds exit (if cwd0 = "" then [] else splitSegs cwd0) (parseCommands block)
    with ⟨segsF, evs, fl⟩
  cases fl with
  | false =>
    have e : runShellCommands exit cwd0 block =
        { cwdRef := if getCwdStr segsF = "." then "" else getCwdStr segsF,
          events := evs, failed := false } := by
      rw [runShellCommands, hr]
    rw [e] at h
    cases h
  | true =>
    have e : runShellCommands exit cwd0 block =
        { cwdRef := cwd0, events := evs, failed := true } := by
      rw [runShellCommands, hr]
    rw [e]
    refine ⟨rfl, ?_⟩
    have hres := runCmds_aborted exit (parseCommands block)
      (if cwd0 = "" then [] else splitSegs cwd0)
    rw [hr] at hres
    exact hres rfl

/-- C9 witness: `cd app` moves the script-local directory, then `npm test`
fails; the persisted cwd stays empty rather than becoming "app". -/
theorem c9_failed_script_preserves_cwd_witness :
    (runShellCommands (fun _ => 1) "" "cd app\nnpm test").cwdRef = "" ∧
    ∃ evs c call code,
      (runShellCommands (fun _ => 1) "" "cd app\nnpm test").events =
        evs ++ [RunEvent.spawned c call code] ∧ ¬ code = 0 :=
  c9_failed_script_preserves_cwd (fun _ => 1) "" "cd app\nnpm test" (by decide)

/-- C6: a `cd <target>` line never spawns a process and updates the logical
working-directory segments exactly as the claim describes (absolute reset
on a leading slash, then per-segment pop / no-op / push); and Scenario B:
running "cd app\nnpm run build" with every command exiting 0 persists the
logical cwd "app" to the session, spawns `npm run build` in cwd "app", and
the RunScript step ends completed. -/
theorem c6_cd_semantics_and_scenarioB :
    (∀ segs target, changeDirectory segs target = cdSpec segs target) ∧
    (∀ (exit : SpawnCall → Int) segs c, strStartsWith c "cd " = true →
      stepCmd exit segs c = .next (changeDirectory segs (cdTarget c)) [.changedDir c]) ∧
    (runShellCommands oracleZero "" "cd app\nnpm run build" =
      { cwdRef := "app",
        events := [.changedDir "cd app", .ensuredManifest "app",
          .spawned "npm run build"
            { program := "npm", args := ["run", "build"], cwd := "app" } 0],
        failed := false }) ∧
    ((scriptTick oracleZero
        [{ id := 1, title := "Run command", description := "", type := .RunScript,
           status := .pending, code := some "cd app\nnpm run build" }] "").1 =
      [{ id := 1, title := "Run command", description := "", type := .RunScript,
         status := .completed, code := some "cd app\nnpm run build" }] ∧
     (scriptTick oracleZero
        [{ id := 1, title := "Run command", description := "", type := .RunScript,
           status := .pending, code := some "cd app\nnpm run build" }] "").2.1 = "app") := by
  refine ⟨fun segs target => rfl, ?_, by decide, by decide, by decide⟩
  intro exit segs c h
  unfold stepCmd
  rw [if_pos h]

/-- C6 witness: the `cd` branch applied at a concrete command. -/
theorem c6_cd_semantics_and_scenarioB_witness :
    stepCmd oracleZero [] "cd app" = .next ["app"] [.changedDir "cd app"] := by
  have h := c6_cd_semantics_and_scenarioB.2.1 oracleZero [] "cd app" (by decide)
  rw [h]
  decide

theorem startsWithChars_parts : ∀ (p l : List Char),
    startsWithChars p l = true → ∃ t, l = p ++ t := by
  intro p
  induction p with
  | nil => intro l _; exact ⟨l, rfl⟩
  | cons x xs ih =>
    intro l h
    cases l with
    | nil => rw [startsWithChars] at h; cases h
    | cons c cs =>
      rw [startsWithChars] at h
      by_cases hc : c = x
      · rw [if_pos hc] at h
        obtain ⟨t, ht⟩ := ih cs h
        exact ⟨t, by rw [hc, ht]; rfl⟩
      · rw [if_neg hc] at h
        cases h

/-- A command matching `^npm\s+init\b/i` does not start with `cd `. -/
theorem npmInit_not_cd {c : String} (h : npmInitTest c = true) :
    strStartsWith c "cd " = false := by
  cases hb : strStartsWith c "cd " with
  | false => rfl
  | true =>
    exfalso
    obtain ⟨t, ht⟩ := startsWithChars_parts _ _ hb
    have ht' : c.data = 'c' :: 'd' :: ' ' :: t := ht
    have hfalse : npmInitTest c = false := by
      unfold npmInitTest npmWordTest lowerChars
      rw [ht']
      rfl
    rw [hfalse] at h
    cases h

/-- A command matching `^npm\s+init\b/i` does not start with `npm run dev`. -/
theorem npmInit_not_dev {c : String} (h : npmInitTest c = true) :
    strStartsWith c "npm run dev" = false := by
  cases hb : strStartsWith c "npm run dev" with
  | false => rfl
  | true =>
    exfalso
    obtain ⟨t, ht⟩ := startsWithChars_parts _ _ hb
    have ht' : c.data =
        'n' :: 'p' :: 'm' :: ' ' :: 'r' :: 'u' :: 'n' :: ' ' :: 'd' :: 'e' :: 'v' :: t := ht
    have hfalse : npmInitTest c = false := by
      unfold npmInitTest npmWordTest lowerChars
      rw [ht']
      rfl
    rw [hfalse] at h
    cases h

/-- C7: a command line matching `npm init` is skipped with a logged
rationale and spawns no process (the loop iteration emits only the skip
event and leaves the directory segments untouched); a RunScript body
containing such a line still runs to completion (`failed = false`) and the
surrounding step is marked completed. -/
theorem c7_npm_init_skipped :
    (∀ (exit : SpawnCall → Int) segs c, npmInitTest c = true →
      stepCmd exit segs c = .next segs [.skippedNpmInit c]) ∧
    (∀ (exit : SpawnCall → Int) (cwd : String),
      (runShellCommands exit cwd "npm init -y").events =
          [.skippedNpmInit "npm init -y"] ∧
        (runShellCommands exit cwd "npm init -y").failed = false) ∧
    (∀ (exit : SpawnCall → Int) (cwd : String),
      (scriptTick exit
          [{ id := 1, title := "Run command", description := "", type := .RunScript,
             status := .pending, code := some "npm init -y" }] cwd).1 =
        [{ id := 1, title := "Run command", description := "", type := .RunScript,
           status := .completed, code := some "npm init -y" }]) := by
  refine ⟨?_, fun exit cwd => ⟨rfl, rfl⟩, fun exit cwd => rfl⟩
  intro exit segs c h
  unfold stepCmd
  rw [if_neg (by rw [npmInit_not_cd h]; simp), if_neg (by rw [npmInit_not_dev h]; simp),
    if_pos h]

/-- C7 witness: the concrete Scenario C command. -/
theorem c7_npm_init_skipped_witness :
    stepCmd oracleZero [] "npm init -y" = .next [] [.skippedNpmInit "npm init -y"] :=
  c7_npm_init_skipped.1 oracleZero [] "npm init -y" (by decide)

/-! ### Claim C8 -/

/-- C8: step failures are contained at the orchestrator boundary. Whatever
the staging oracle or exit-code oracle do (in particular when staging fails
or a command exits nonzero and the runner throws), the processed step is
still marked completed: a pending CreateFolder/CreateFile step maps to the
same step with status completed and every other step is unchanged, and the
first pending RunScript step is set to completed, all other positions
untouched — the tick functions are total, so no error propagates, and no
step ever returns to pending. -/
theorem c8_failures_contained :
    (∀ (stageOk : Step → Bool) (steps : List Step) (i : Nat) (s : Step),
      steps.get? i = some s →
      (fileTick stageOk steps).1.get? i =
        some (if s.status = .pending ∧ (s.type = .CreateFolder ∨ s.type = .CreateFile)
              then { s with status := .completed } else s)) ∧
    (∀ (exit : SpawnCall → Int) (steps : List Step) (cwd : String) (i : Nat) (s : Step),
      firstPendingScript steps = some (i, s) →
      (scriptTick exit steps cwd).1.get? i = some { s with status := .completed }) ∧
    (∀ (exit : SpawnCall → Int) (steps : List Step) (cwd : String) (i : Nat) (s : Step)
      (j : Nat), firstPendingScript steps = some (i, s) → j ≠ i →
      (scriptTick exit steps cwd).1.get? j = steps.get? j) := by
  refine ⟨?_, ?_, ?_⟩
  · intro stageOk steps i s h
    unfold fileTick
    dsimp only
    rw [List.get?_map, h]
    rfl
  · intro exit steps cwd i s h
    unfold scriptTick
    rw [h]
    dsimp only
    exact get_set_eq steps i s _ (firstPendingScript_get steps i s h).1
  · intro exit steps cwd i s j h hj
    unfold scriptTick
    rw [h]
    dsimp only
    exact get_set_ne steps i j _ hj

/-- C8 witness: one failing CreateFile step and one RunScript step whose
only command exits nonzero both end completed. -/
theorem c8_failures_contained_witness :
    (fileTick (fun _ => false)
        [{ id := 1, title := "Create a.txt", description := "", type := .CreateFile,
           status := .pending, code := some "x", path := some "a.txt" }]).1.get? 0 =
      some { id := 1, title := "Create a.txt", description := "", type := .CreateFile,
             status := .completed, code := some "x", path := some "a.txt" } ∧
    (scriptTick (fun _ => 1)
        [{ id := 1, title := "Run command", description := "", type := .RunScript,
           status := .pending, code := some "npm test" }] "").1.get? 0 =
      some { id := 1, title := "Run command", description := "", type := .RunScript,
             status := .completed, code := some "npm test" } := by
  constructor
  · have h := c8_failures_contained.1 (fun _ => false)
      [{ id := 1, title := "Create a.txt", description := "", type := .CreateFile,
         status := .pending, code := some "x", path := some "a.txt" }] 0
      { id := 1, title := "Create a.txt", description := "", type := .CreateFile,
        status := .pending, code := some "x", path := some "a.txt" } rfl
    rw [h]
    decide
  · have h := c8_failures_contained.2.1 (fun _ => 1)
      [{ id := 1, title := "Run command", description := "", type := .RunScript,
         status := .pending, code := some "npm test" }] "" 0
      { id := 1, title := "Run command", description := "", type := .RunScript,
        status := .pending, code := some "npm test" } (by decide)
    rw [h]

/-! ### Claim C2 -/

theorem TreeOrdered.pairwise {l : List FileItem} (h : TreeOrdered l) :
    l.Pairwise nodeRel := by
  cases h with
  | mk _ hp _ => exact hp

theorem TreeOrdered.children {l : List FileItem} (h : TreeOrdered l)
    {n p : String} {ch : List FileItem} (hm : FileItem.folder n p ch ∈ l) :
    TreeOrdered ch := by
  cases h with
  | mk _ _ hc => exact hc n p ch hm

theorem treeOrdered_nil : TreeOrdered [] :=
  TreeOrdered.mk [] List.Pairwise.nil (by intro n p ch h; cases h)

theorem mem_sortFileNodes {x : FileItem} {l : List FileItem} :
    x ∈ sortFileNodes l ↔ x ∈ l := by
  unfold sortFileNodes
  exact List.mem_insertionSort nodeRel

theorem sortFileNodes_pairwise (l : List FileItem) :
    (sortFileNodes l).Pairwise nodeRel :=
  List.sorted_insertionSort nodeRel l

theorem treeOrdered_sort {l : List FileItem}
    (h : ∀ n p ch, FileItem.folder n p ch ∈ l → TreeOrdered ch) :
    TreeOrdered (sortFileNodes l) :=
  TreeOrdered.mk _ (sortFileNodes_pairwise l)
    (fun n p ch hm => h n p ch (mem_sortFileNodes.1 hm))

theorem lookupPath_spec : ∀ (nodes : List FileItem) (fp : String) (i : Nat) (x : FileItem),
    lookupPath nodes fp = some (i, x) →
    x ∈ nodes ∧ x.path = fp ∧ nodes.get? i = some x := by
  intro nodes
  induction nodes with
  | nil => intro fp i x h; cases h
  | cons a as ih =>
    intro fp i x h
    rw [lookupPath] at h
    by_cases ha : a.path = fp
    · rw [if_pos ha] at h
      cases h
      exact ⟨List.mem_cons_self _ _, ha, rfl⟩
    · rw [if_neg ha] at h
      cases hl : lookupPath as fp with
      | none => rw [hl] at h; cases h
      | some p =>
        rw [hl] at h
        cases h
        obtain ⟨h1, h2, h3⟩ := ih fp p.1 p.2 hl
        exact ⟨List.mem_cons_of_mem _ h1, h2, h3⟩

theorem lookupPath_none : ∀ (nodes : List FileItem) (fp : String),
    lookupPath nodes fp = none → ∀ x ∈ nodes, ¬ x.path = fp := by
  intro nodes
  induction nodes with
  | nil => intro fp _ x hx; cases hx
  | cons a as ih =>
    intro fp h x hx
    rw [lookupPath] at h
    by_cases ha : a.path = fp
    · rw [if_pos ha] at h; cases h
    · rw [if_neg ha] at h
      rcases List.mem_cons.1 hx with rfl | hx
      · exact ha
      · cases hl : lookupPath as fp with
        | none => exact ih fp hl x hx
        | some p => rw [hl] at h; cases h

/-- Inserting a path into a recursively ordered sibling list keeps every
level ordered: each touched level is re-sorted and untouched children are
unchanged. -/
theorem treeOrdered_insertNode : ∀ (segs : List String) (nodes : List FileItem)
    (cur content : String), TreeOrdered nodes →
    TreeOrdered (insertNode nodes segs cur content) := by
  intro segs
  induction segs with
  | nil => intro nodes cur content h; exact h
  | cons a rest ih =>
    intro nodes cur content h
    cases rest with
    | nil =>
      rw [insertNode]
      cases hl : lookupPath nodes (joinPath cur a) with
      | some p =>
        rcases p with ⟨i, x⟩
        apply treeOrdered_sort
        intro n q ch hm
        rcases List.mem_or_eq_of_mem_set hm with hm | hm
        · exact h.children hm
        · cases hm
      | none =>
        apply treeOrdered_sort
        intro n q ch hm
        rcases List.mem_append.1 hm with hm | hm
        · exact h.children hm
        · rcases List.mem_singleton.1 hm with hm
          cases hm
    | cons b rest2 =>
      rw [insertNode]
      cases hl : lookupPath nodes (joinPath cur a) with
      | some p =>
        rcases p with ⟨i, x⟩
        cases x with
        | folder n q ch =>
          apply treeOrdered_sort
          intro n2 q2 ch2 hm
          rcases List.mem_or_eq_of_mem_set hm with hm | hm
          · exact h.children hm
          · cases hm
            exact ih ch (joinPath cur a) content
              (h.children (lookupPath_spec nodes (joinPath cur a) i _ hl).1)
        | file n q co =>
          apply treeOrdered_sort
          intro n2 q2 ch2 hm
          rcases List.mem_or_eq_of_mem_set hm with hm | hm
          · exact h.children hm
          · cases hm
            exact ih [] (joinPath cur a) content treeOrdered_nil
      | none =>
        apply treeOrdered_sort
        intro n2 q2 ch2 hm
        rcases List.mem_append.1 hm with hm | hm
        · exact h.children hm
        · rcases List.mem_singleton.1 hm with hm
          cases hm
          exact ih [] (joinPath cur a) content treeOrdered_nil

theorem treeOrdered_upsertFile {t : List FileItem} (p content : String)
    (h : TreeOrdered t) : TreeOrdered (upsertFile t p content) := by
  unfold upsertFile
  by_cases hp : p = ""
  · rw [if_pos hp]; exact h
  · rw [if_neg hp]; exact treeOrdered_insertNode (splitSegs p) t "" content h

/-- C2: every file tree reachable from the empty tree by a finite sequence
of upserts satisfies, at the root list and recursively in every folder's
children, the comparator ordering: all folder nodes before all file nodes
and each group sorted lexicographically by name. -/
theorem c2_reachable_tree_ordered (ops : List (String × String)) :
    TreeOrdered (applyUpserts [] ops) := by
  suffices hgen : ∀ (ops : List (String × String)) (t : List FileItem),
      TreeOrdered t → TreeOrdered (applyUpserts t ops) from
    hgen ops [] treeOrdered_nil
  intro ops
  induction ops with
  | nil => intro t h; exact h
  | cons op rest ih =>
    intro t h
    exact ih (upsertFile t op.1 op.2) (treeOrdered_upsertFile op.1 op.2 h)

/-! ### Claim C3: support lemmas -/

theorem get?_some_lt {α : Type} : ∀ {l : List α} {i : Nat} {x : α},
    l.get? i = some x → i < l.length := by
  intro l
  induction l with
  | nil => intro i x h; cases i <;> cases h
  | cons a as ih =>
    intro i x h
    cases i with
    | zero => exact Nat.succ_pos _
    | succ k => exact Nat.succ_lt_succ (ih h)

theorem set_get_self {α : Type} : ∀ (l : List α) (i : Nat) (x : α),
    l.get? i = some x → l.set i x = l := by
  intro l
  induction l with
  | nil => intro i x h; cases i <;> cases h
  | cons a as ih =>
    intro i x h
    cases i with
    | zero => cases h; rfl
    | succ k => rw [List.set_cons_succ, ih k x h]

theorem set_perm_cons {α : Type} : ∀ (l : List α) (i : Nat) (f : α),
    i < l.length → List.Perm (l.set i f) (f :: l.eraseIdx i) := by
  intro l
  induction l with
  | nil => intro i f h; cases h
  | cons a as ih =>
    intro i f h
    cases i with
    | zero => exact List.Perm.refl _
    | succ k =>
      have h' : k < as.length := Nat.lt_of_succ_lt_succ h
      exact ((ih k f h').cons a).trans (List.Perm.swap f a _)

theorem map_eraseIdx' {α β : Type} (f : α → β) : ∀ (l : List α) (i : Nat),
    (l.eraseIdx i).map f = (l.map f).eraseIdx i := by
  intro l
  induction l with
  | nil => intro i; cases i <;> rfl
  | cons a as ih =>
    intro i
    cases i with
    | zero => rfl
    | succ k =>
      rw [List.eraseIdx_cons_succ, List.map_cons, List.map_cons,
        List.eraseIdx_cons_succ, ih k]

theorem nodup_get_not_mem_eraseIdx {α : Type} : ∀ (l : List α) (i : Nat) (x : α),
    l.Nodup → l.get? i = some x → x ∉ l.eraseIdx i := by
  intro l
  induction l with
  | nil => intro i x _ h; cases i <;> cases h
  | cons a as ih =>
    intro i x hn h
    cases i with
    | zero =>
      cases h
      rw [List.eraseIdx_cons_zero]
      exact (List.nodup_cons.1 hn).1
    | succ k =>
      rw [List.eraseIdx_cons_succ]
      intro hm
      rcases List.mem_cons.1 hm with rfl | hm
      · exact (List.nodup_cons.1 hn).1 (List.get?_mem h)
      · exact ih k x (List.nodup_cons.1 hn).2 h hm

theorem lookupPath_eraseIdx : ∀ (l : List FileItem) (fp : String) (i : Nat) (x : FileItem),
    lookupPath l fp = some (i, x) → l.eraseIdx i = l.erase x := by
  intro l
  induction l with
  | nil => intro fp i x h; cases h
  | cons a as ih =>
    intro fp i x h
    rw [lookupPath] at h
    by_cases ha : a.path = fp
    · rw [if_pos ha] at h
      cases h
      rw [List.eraseIdx_cons_zero, List.erase_cons_head]
    · rw [if_neg ha] at h
      cases hl : lookupPath as fp with
      | none => rw [hl] at h; cases h
      | some p =>
        rw [hl] at h
        cases h
        have hxp : p.2.path = fp := (lookupPath_spec as fp p.1 p.2 hl).2.1
        have hax : ¬ (a == p.2) = true := by
          intro hb
          have : a = p.2 := eq_of_beq hb
          exact ha (this ▸ hxp)
        rw [List.eraseIdx_cons_succ, List.erase_cons_tail hax, ih fp p.1 p.2 hl]

theorem lookupPath_set : ∀ (l : List FileItem) (fp : String) (i : Nat) (x y : FileItem),
    lookupPath l fp = some (i, x) → y.path = fp →
    lookupPath (l.set i y) fp = some (i, y) := by
  intro l
  induction l with
  | nil => intro fp i x y h _; cases h
  | cons a as ih =>
    intro fp i x y h hy
    rw [lookupPath] at h
    by_cases ha : a.path = fp
    · rw [if_pos ha] at h
      cases h
      rw [List.set_cons_zero, lookupPath, if_pos hy]
    · rw [if_neg ha] at h
      cases hl : lookupPath as fp with
      | none => rw [hl] at h; cases h
      | some p =>
        rw [hl] at h
        cases h
        rw [List.set_cons_succ, lookupPath, if_neg ha, ih fp p.1 p.2 y hl hy]
        rfl

theorem set_eraseIdx {α : Type} : ∀ (l : List α) (i : Nat) (y : α),
    (l.set i y).eraseIdx i = l.eraseIdx i := by
  intro l
  induction l with
  | nil => intro i y; cases i <;> rfl
  | cons a as ih =>
    intro i y
    cases i with
    | zero => rfl
    | succ k =>
      rw [List.set_cons_succ, List.eraseIdx_cons_succ, List.eraseIdx_cons_succ, ih k]

theorem lookupPath_of_unique : ∀ (l : List FileItem) (fp : String) (x : FileItem),
    x ∈ l → x.path = fp → (∀ y ∈ l, y.path = fp → y = x) →
    ∃ j, lookupPath l fp = some (j, x) := by
  intro l
  induction l with
  | nil => intro fp x hx; cases hx
  | cons a as ih =>
    intro fp x hx hxp huniq
    by_cases ha : a.path = fp
    · have : a = x := huniq a (List.mem_cons_self _ _) ha
      exact ⟨0, by rw [lookupPath, if_pos ha, this]⟩
    · have hxa : x ∈ as := by
        rcases List.mem_cons.1 hx with rfl | hx
        · exact absurd hxp ha
        · exact hx
      obtain ⟨j, hj⟩ := ih fp x hxa hxp
        (fun y hy hyp => huniq y (List.mem_cons_of_mem _ hy) hyp)
      exact ⟨j + 1, by rw [lookupPath, if_neg ha, hj]; rfl⟩

theorem unique_path_in_set :
    ∀ (l : List FileItem) (i : Nat) (x f : FileItem) (fp : String),
    (l.map FileItem.path).Nodup → l.get? i = some x → x.path = fp →
    f.path = fp → ∀ y ∈ l.set i f, y.path = fp → y = f := by
  intro l
  induction l with
  | nil => intro i x f fp _ h; cases i <;> cases h
  | cons a as ih =>
    intro i x f fp hn hget hx hf y hy hyp
    rw [List.map_cons] at hn
    have hnc := List.nodup_cons.1 hn
    cases i with
    | zero =>
      cases hget
      rw [List.set_cons_zero] at hy
      rcases List.mem_cons.1 hy with rfl | hy
      · rfl
      · exfalso
        have hm : y.path ∈ as.map FileItem.path := List.mem_map_of_mem FileItem.path hy
        rw [hyp, ← hx] at hm
        exact hnc.1 hm
    | succ k =>
      rw [List.set_cons_succ] at hy
      rcases List.mem_cons.1 hy with rfl | hy
      · exfalso
        have hxmem : x ∈ as := List.get?_mem hget
        have hm : x.path ∈ as.map FileItem.path := List.mem_map_of_mem FileItem.path hxmem
        rw [hx] at hm
        exact absurd hm (hyp ▸ hnc.1)
      · exact ih k x f fp hnc.2 hget hx hf y hy hyp

theorem lexLe_refl : ∀ l : List Char, lexLe l l = true := by
  intro l
  induction l with
  | nil => rfl
  | cons c cs ih => rw [lexLe, if_pos rfl]; exact ih

theorem nodeRel_refl (x : FileItem) : nodeRel x x := by
  unfold nodeRel nodeLe
  rw [if_pos rfl]
  exact lexLe_refl x.name.data

/-- Two sorted lists over the comparator that are permutations of each
other and whose elements are separated by (kind, name) are equal: the
stable-sort output is unique once keys are distinct. -/
theorem sorted_unique : ∀ (l1 l2 : List FileItem), List.Perm l1 l2 →
    l1.Pairwise nodeRel → l2.Pairwise nodeRel →
    (∀ a ∈ l1, ∀ b ∈ l1, a.isFolder = b.isFolder → a.name = b.name → a = b) →
    l1 = l2 := by
  intro l1
  induction l1 with
  | nil =>
    intro l2 hp _ _ _
    exact List.Perm.nil_eq hp
  | cons a t1 ih =>
    intro l2 hp hs1 hs2 hinj
    cases l2 with
    | nil => exact absurd (hp.symm.nil_eq) (by simp)
    | cons b t2 =>
      have hb1 : b ∈ a :: t1 := hp.mem_iff.2 (List.mem_cons_self _ _)
      have ha2 : a ∈ b :: t2 := hp.mem_iff.1 (List.mem_cons_self _ _)
      have hab : nodeRel a b := by
        rcases List.mem_cons.1 hb1 with rfl | hb1
        · exact nodeRel_refl _
        · exact (List.pairwise_cons.1 hs1).1 b hb1
      have hba : nodeRel b a := by
        rcases List.mem_cons.1 ha2 with rfl | ha2
        · exact nodeRel_refl _
        · exact (List.pairwise_cons.1 hs2).1 a ha2
      obtain ⟨hk, hnm⟩ := nodeLe_tie hab hba
      have heq : a = b := hinj a (List.mem_cons_self _ _) b hb1 hk hnm
      subst heq
      have hpt : List.Perm t1 t2 := hp.cons_inv
      have ht : t1 = t2 := ih t2 hpt (List.pairwise_cons.1 hs1).2
        (List.pairwise_cons.1 hs2).2
        (fun x hx y hy => hinj x (List.mem_cons_of_mem _ hx) y (List.mem_cons_of_mem _ hy))
      rw [ht]

theorem WfList.nodup {cur : String} {nodes : List FileItem} (h : WfList cur nodes) :
    (nodes.map FileItem.path).Nodup := by
  cases h with
  | mk _ _ h1 _ _ => exact h1

theorem WfList.consistent {cur : String} {nodes : List FileItem} (h : WfList cur nodes) :
    ∀ x ∈ nodes, x.path = joinPath cur x.name := by
  cases h with
  | mk _ _ _ h2 _ => exact h2

theorem WfList.childrenWf {cur : String} {nodes : List FileItem} (h : WfList cur nodes) :
    ∀ n p ch, FileItem.folder n p ch ∈ nodes → WfList p ch := by
  cases h with
  | mk _ _ _ _ h3 => exact h3

theorem wfList_nil (cur : String) : WfList cur [] :=
  WfList.mk cur [] (by simp) (by simp) (by intro n p ch h; cases h)

theorem joinPath_inj {cur a b : String} (h : joinPath cur a = joinPath cur b) :
    a = b := by
  unfold joinPath at h
  by_cases hc : cur = ""
  · rw [if_pos hc, if_pos hc] at h
    exact h
  · rw [if_neg hc, if_neg hc] at h
    have hd : (cur ++ "/" ++ a).data = (cur ++ "/" ++ b).data := by rw [h]
    rw [String.data_append, String.data_append, String.data_append,
      String.data_append, List.append_assoc, List.append_assoc] at hd
    have := List.append_cancel_left hd
    have := List.append_cancel_left this
    cases a; cases b
    exact congrArg String.mk this

theorem wf_names_nodup {cur : String} {nodes : List FileItem}
    (h : WfList cur nodes) : (nodes.map FileItem.name).Nodup := by
  have hc := h.consistent
  have hp : List.Pairwise (fun x y => x ≠ y) (nodes.map FileItem.path) := h.nodup
  rw [List.pairwise_map] at hp
  show List.Pairwise (fun x y => x ≠ y) (nodes.map FileItem.name)
  rw [List.pairwise_map]
  refine hp.imp_of_mem ?_
  intro x y hx hy hne hnm
  exact hne (by rw [hc x hx, hc y hy, hnm])

theorem sortFileNodes_perm (l : List FileItem) :
    List.Perm (sortFileNodes l) l :=
  List.perm_insertionSort nodeRel l

/-- On a list whose members all take their `path` from their `name` under a
fixed parent and whose paths are distinct, equal (kind, name) keys force
equal elements; transported along a permutation. -/
theorem inj_of_perm_keyed (l m : List FileItem) (cur : String)
    (hperm : List.Perm l m)
    (hc : ∀ z ∈ m, z.path = joinPath cur z.name)
    (hn : (m.map FileItem.path).Nodup) :
    ∀ a ∈ l, ∀ b ∈ l, a.isFolder = b.isFolder → a.name = b.name → a = b := by
  intro a ha b hb _ hname
  have ham : a ∈ m := hperm.subset ha
  have hbm : b ∈ m := hperm.subset hb
  have hpath : a.path = b.path := by rw [hc a ham, hc b hbm, hname]
  exact List.inj_on_of_nodup_map hn ham hbm hpath

/-- Replacing the node found at a path and re-sorting, twice with same-path
replacements `f1` then `f2`, equals replacing once with `f2`: the first
replacement stays the unique node at that path, so the second lands on it. -/
theorem insert_twice_set (nodes : List FileItem) (cur fp : String) (i : Nat)
    (x f1 f2 : FileItem) (h : WfList cur nodes)
    (hl : lookupPath nodes fp = some (i, x))
    (hf1 : f1.path = fp) (hf2 : f2.path = fp)
    (hjoin : fp = joinPath cur f2.name) :
    ∃ j, lookupPath (sortFileNodes (nodes.set i f1)) fp = some (j, f1) ∧
      sortFileNodes ((sortFileNodes (nodes.set i f1)).set j f2) =
      sortFileNodes (nodes.set i f2) := by
  obtain ⟨hxmem, hxp, hget⟩ := lookupPath_spec nodes fp i x hl
  have hi : i < nodes.length := get?_some_lt hget
  have huniq : ∀ y ∈ nodes.set i f1, y.path = fp → y = f1 :=
    unique_path_in_set nodes i x f1 fp h.nodup hget hxp hf1
  have hf1mem : f1 ∈ sortFileNodes (nodes.set i f1) :=
    mem_sortFileNodes.2 ((set_perm_cons nodes i f1 hi).mem_iff.2 (List.mem_cons_self _ _))
  obtain ⟨j, hj⟩ := lookupPath_of_unique (sortFileNodes (nodes.set i f1)) fp f1
    hf1mem hf1 (fun y hy hyp => huniq y (mem_sortFileNodes.1 hy) hyp)
  refine ⟨j, hj, ?_⟩
  have hgetj : (sortFileNodes (nodes.set i f1)).get? j = some f1 :=
    (lookupPath_spec _ fp j f1 hj).2.2
  have hjlt : j < (sortFileNodes (nodes.set i f1)).length := get?_some_lt hgetj
  have p1 := sortFileNodes_perm ((sortFileNodes (nodes.set i f1)).set j f2)
  have p2 := set_perm_cons (sortFileNodes (nodes.set i f1)) j f2 hjlt
  have e3 : (sortFileNodes (nodes.set i f1)).eraseIdx j =
      (sortFileNodes (nodes.set i f1)).erase f1 :=
    lookupPath_eraseIdx _ fp j f1 hj
  have p4 : List.Perm ((sortFileNodes (nodes.set i f1)).erase f1)
      ((nodes.set i f1).erase f1) :=
    List.Perm.erase f1 (sortFileNodes_perm _)
  have hlset : lookupPath (nodes.set i f1) fp = some (i, f1) :=
    lookupPath_set nodes fp i x f1 hl hf1
  have e5 : (nodes.set i f1).eraseIdx i = (nodes.set i f1).erase f1 :=
    lookupPath_eraseIdx (nodes.set i f1) fp i f1 hlset
  have e6 : (nodes.set i f1).eraseIdx i = nodes.eraseIdx i := set_eraseIdx nodes i f1
  have p4' : List.Perm ((sortFileNodes (nodes.set i f1)).erase f1) (nodes.eraseIdx i) := by
    rw [← e5, e6] at p4
    exact p4
  have pAll : List.Perm (sortFileNodes ((sortFileNodes (nodes.set i f1)).set j f2))
      (f2 :: nodes.eraseIdx i) := by
    refine (p1.trans p2).trans ?_
    rw [e3]
    exact p4'.cons f2
  have p7 := set_perm_cons nodes i f2 hi
  have pR : List.Perm (sortFileNodes ((sortFileNodes (nodes.set i f1)).set j f2))
      (sortFileNodes (nodes.set i f2)) :=
    pAll.trans (p7.symm.trans (sortFileNodes_perm (nodes.set i f2)).symm)
  have hc : ∀ z ∈ f2 :: nodes.eraseIdx i, z.path = joinPath cur z.name := by
    intro z hz
    rcases List.mem_cons.1 hz with rfl | hz
    · rw [hf2]
      exact hjoin
    · exact h.consistent z ((List.eraseIdx_sublist nodes i).subset hz)
  have hm : ((f2 :: nodes.eraseIdx i).map FileItem.path).Nodup := by
    rw [List.map_cons, List.nodup_cons]
    constructor
    · rw [map_eraseIdx', hf2]
      have hgp : (nodes.map FileItem.path).get? i = some fp := by
        rw [List.get?_map, hget]
        exact congrArg some hxp
      exact nodup_get_not_mem_eraseIdx (nodes.map FileItem.path) i fp h.nodup hgp
    · rw [map_eraseIdx']
      exact List.Nodup.sublist (List.eraseIdx_sublist _ _) h.nodup
  exact sorted_unique _ _ pR (sortFileNodes_pairwise _) (sortFileNodes_pairwise _)
    (inj_of_perm_keyed _ _ cur pAll hc hm)

/-- Appending a fresh node at a path absent from the tree and re-sorting,
then replacing at that path with a same-path node, equals appending the
second node directly. -/
theorem insert_twice_append (nodes : List FileItem) (cur fp : String)
    (f1 f2 : FileItem) (h : WfList cur nodes)
    (hl : lookupPath nodes fp = none)
    (hf1 : f1.path = fp) (hf2 : f2.path = fp)
    (hjoin : fp = joinPath cur f2.name) :
    ∃ j, lookupPath (sortFileNodes (nodes ++ [f1])) fp = some (j, f1) ∧
      sortFileNodes ((sortFileNodes (nodes ++ [f1])).set j f2) =
      sortFileNodes (nodes ++ [f2]) := by
  have hnone := lookupPath_none nodes fp hl
  have hf1n : f1 ∉ nodes := fun hmem => hnone f1 hmem hf1
  have huniq : ∀ y ∈ nodes ++ [f1], y.path = fp → y = f1 := by
    intro y hy hyp
    rcases List.mem_append.1 hy with hy | hy
    · exact absurd hyp (hnone y hy)
    · exact List.mem_singleton.1 hy
  have hf1mem : f1 ∈ sortFileNodes (nodes ++ [f1]) :=
    mem_sortFileNodes.2 (List.mem_append.2 (Or.inr (List.mem_singleton.2 rfl)))
  obtain ⟨j, hj⟩ := lookupPath_of_unique (sortFileNodes (nodes ++ [f1])) fp f1
    hf1mem hf1 (fun y hy hyp => huniq y (mem_sortFileNodes.1 hy) hyp)
  refine ⟨j, hj, ?_⟩
  have hgetj : (sortFileNodes (nodes ++ [f1])).get? j = some f1 :=
    (lookupPath_spec _ fp j f1 hj).2.2
  have hjlt : j < (sortFileNodes (nodes ++ [f1])).length := get?_some_lt hgetj
  have p1 := sortFileNodes_perm ((sortFileNodes (nodes ++ [f1])).set j f2)
  have p2 := set_perm_cons (sortFileNodes (nodes ++ [f1])) j f2 hjlt
  have e3 : (sortFileNodes (nodes ++ [f1])).eraseIdx j =
      (sortFileNodes (nodes ++ [f1])).erase f1 :=
    lookupPath_eraseIdx _ fp j f1 hj
  have p4 : List.Perm ((sortFileNodes (nodes ++ [f1])).erase f1)
      ((nodes ++ [f1]).erase f1) :=
    List.Perm.erase f1 (sortFileNodes_perm _)
  have e5 : (nodes ++ [f1]).erase f1 = nodes := by
    rw [List.erase_append_right _ hf1n, List.erase_cons_head, List.append_nil]
  have p4' : List.Perm ((sortFileNodes (nodes ++ [f1])).erase f1) nodes := by
    rw [e5] at p4
    exact p4
  have pAll : List.Perm (sortFileNodes ((sortFileNodes (nodes ++ [f1])).set j f2))
      (f2 :: nodes) := by
    refine (p1.trans p2).trans ?_
    rw [e3]
    exact p4'.cons f2
  have pR : List.Perm (sortFileNodes ((sortFileNodes (nodes ++ [f1])).set j f2))
      (sortFileNodes (nodes ++ [f2])) :=
    pAll.trans ((List.perm_append_singleton f2 nodes).symm.trans
      (sortFileNodes_perm (nodes ++ [f2])).symm)
  have hc : ∀ z ∈ f2 :: nodes, z.path = joinPath cur z.name := by
    intro z hz
    rcases List.mem_cons.1 hz with rfl | hz
    · rw [hf2]
      exact hjoin
    · exact h.consistent z hz
  have hm : ((f2 :: nodes).map FileItem.path).Nodup := by
    rw [List.map_cons, List.nodup_cons]
    refine ⟨?_, h.nodup⟩
    rw [hf2]
    intro hmem
    obtain ⟨y, hy, hyp⟩ := List.mem_map.1 hmem
    exact hnone y hy hyp
  exact sorted_unique _ _ pR (sortFileNodes_pairwise _) (sortFileNodes_pairwise _)
    (inj_of_perm_keyed _ _ cur pAll hc hm)

/-- Inserting the same segment path twice into a well-formed sibling list
(with any two contents) leaves exactly the second insertion. -/
theorem insertNode_idem : ∀ (segs : List String) (nodes : List FileItem)
    (cur c1 c2 : String), WfList cur nodes →
    insertNode (insertNode nodes segs cur c1) segs cur c2 =
    insertNode nodes segs cur c2 := by
  intro segs
  induction segs with
  | nil => intro nodes cur c1 c2 _; rfl
  | cons a rest ih =>
    intro nodes cur c1 c2 h
    cases rest with
    | nil =>
      cases hl : lookupPath nodes (joinPath cur a) with
      | some p =>
        rcases p with ⟨i, x⟩
        have e1 : insertNode nodes [a] cur c1 =
            sortFileNodes (nodes.set i (.file a (joinPath cur a) c1)) := by
          rw [insertNode, hl]
        have e2 : insertNode nodes [a] cur c2 =
            sortFileNodes (nodes.set i (.file a (joinPath cur a) c2)) := by
          rw [insertNode, hl]
        obtain ⟨j, hj, heq⟩ := insert_twice_set nodes cur (joinPath cur a) i x
          (.file a (joinPath cur a) c1) (.file a (joinPath cur a) c2)
          h hl rfl rfl rfl
        have e3 : insertNode
              (sortFileNodes (nodes.set i (.file a (joinPath cur a) c1))) [a] cur c2 =
            sortFileNodes ((sortFileNodes (nodes.set i (.file a (joinPath cur a) c1))).set j
              (.file a (joinPath cur a) c2)) := by
          rw [insertNode, hj]
        rw [e1, e3, e2]
        exact heq
      | none =>
        have e1 : insertNode nodes [a] cur c1 =
            sortFileNodes (nodes ++ [.file a (joinPath cur a) c1]) := by
          rw [insertNode, hl]
        have e2 : insertNode nodes [a] cur c2 =
            sortFileNodes (nodes ++ [.file a (joinPath cur a) c2]) := by
          rw [insertNode, hl]
        obtain ⟨j, hj, heq⟩ := insert_twice_append nodes cur (joinPath cur a)
          (.file a (joinPath cur a) c1) (.file a (joinPath cur a) c2)
          h hl rfl rfl rfl
        have e3 : insertNode
              (sortFileNodes (nodes ++ [.file a (joinPath cur a) c1])) [a] cur c2 =
            sortFileNodes ((sortFileNodes (nodes ++ [.file a (joinPath cur a) c1])).set j
              (.file a (joinPath cur a) c2)) := by
          rw [insertNode, hj]
        rw [e1, e3, e2]
        exact heq
    | cons b rest2 =>
      cases hl : lookupPath nodes (joinPath cur a) with
      | some p =>
        rcases p with ⟨i, x⟩
        cases x with
        | folder n q ch =>
          have hspec := lookupPath_spec nodes (joinPath cur a) i _ hl
          have hq : q = joinPath cur a := hspec.2.1
          have hwf : WfList q ch := h.childrenWf n q ch hspec.1
          have hjn : q = joinPath cur n := h.consistent _ hspec.1
          have hinner := ih ch (joinPath cur a) c1 c2 (hq ▸ hwf)
          have e1 : insertNode nodes (a :: b :: rest2) cur c1 =
              sortFileNodes (nodes.set i
                (.folder n q (insertNode ch (b :: rest2) (joinPath cur a) c1))) := by
            rw [insertNode, hl]
          have e2 : insertNode nodes (a :: b :: rest2) cur c2 =
              sortFileNodes (nodes.set i
                (.folder n q (insertNode ch (b :: rest2) (joinPath cur a) c2))) := by
            rw [insertNode, hl]
          obtain ⟨j, hj, heq⟩ := insert_twice_set nodes cur (joinPath cur a) i
            (.folder n q ch)
            (.folder n q (insertNode ch (b :: rest2) (joinPath cur a) c1))
            (.folder n q (insertNode ch (b :: rest2) (joinPath cur a) c2))
            h hl hq hq (hq.symm.trans hjn)
          have e3 : insertNode (sortFileNodes (nodes.set i
                (.folder n q (insertNode ch (b :: rest2) (joinPath cur a) c1))))
                (a :: b :: rest2) cur c2 =
              sortFileNodes ((sortFileNodes (nodes.set i
                (.folder n q (insertNode ch (b :: rest2) (joinPath cur a) c1)))).set j
                (.folder n q (insertNode
                  (insertNode ch (b :: rest2) (joinPath cur a) c1)
                  (b :: rest2) (joinPath cur a) c2))) := by
            rw [insertNode, hj]
          rw [e1, e3, hinner, e2]
          exact heq
        | file n q co =>
          have hinner := ih [] (joinPath cur a) c1 c2 (wfList_nil _)
          have e1 : insertNode nodes (a :: b :: rest2) cur c1 =
              sortFileNodes (nodes.set i (.folder a (joinPath cur a)
                (insertNode [] (b :: rest2) (joinPath cur a) c1))) := by
            rw [insertNode, hl]
          have e2 : insertNode nodes (a :: b :: rest2) cur c2 =
              sortFileNodes (nodes.set i (.folder a (joinPath cur a)
                (insertNode [] (b :: rest2) (joinPath cur a) c2))) := by
            rw [insertNode, hl]
          obtain ⟨j, hj, heq⟩ := insert_twice_set nodes cur (joinPath cur a) i
            (.file n q co)
            (.folder a (joinPath cur a) (insertNode [] (b :: rest2) (joinPath cur a) c1))
            (.folder a (joinPath cur a) (insertNode [] (b :: rest2) (joinPath cur a) c2))
            h hl rfl rfl rfl
          have e3 : insertNode (sortFileNodes (nodes.set i (.folder a (joinPath cur a)
                (insertNode [] (b :: rest2) (joinPath cur a) c1))))
                (a :: b :: rest2) cur c2 =
              sortFileNodes ((sortFileNodes (nodes.set i (.folder a (joinPath cur a)
                (insertNode [] (b :: rest2) (joinPath cur a) c1)))).set j
                (.folder a (joinPath cur a) (insertNode
                  (insertNode [] (b :: rest2) (joinPath cur a) c1)
                  (b :: rest2) (joinPath cur a) c2))) := by
            rw [insertNode, hj]
          rw [e1, e3, hinner, e2]
          exact heq
      | none =>
        have hinner := ih [] (joinPath cur a) c1 c2 (wfList_nil _)
        have e1 : insertNode nodes (a :: b :: rest2) cur c1 =
            sortFileNodes (nodes ++ [.folder a (joinPath cur a)
              (insertNode [] (b :: rest2) (joinPath cur a) c1)]) := by
          rw [insertNode, hl]
        have e2 : insertNode nodes (a :: b :: rest2) cur c2 =
            sortFileNodes (nodes ++ [.folder a (joinPath cur a)
              (insertNode [] (b :: rest2) (joinPath cur a) c2)]) := by
          rw [insertNode, hl]
        obtain ⟨j, hj, heq⟩ := insert_twice_append nodes cur (joinPath cur a)
          (.folder a (joinPath cur a) (insertNode [] (b :: rest2) (joinPath cur a) c1))
          (.folder a (joinPath cur a) (insertNode [] (b :: rest2) (joinPath cur a) c2))
          h hl rfl rfl rfl
        have e3 : insertNode (sortFileNodes (nodes ++ [.folder a (joinPath cur a)
              (insertNode [] (b :: rest2) (joinPath cur a) c1)]))
              (a :: b :: rest2) cur c2 =
            sortFileNodes ((sortFileNodes (nodes ++ [.folder a (joinPath cur a)
              (insertNode [] (b :: rest2) (joinPath cur a) c1)])).set j
              (.folder a (joinPath cur a) (insertNode
                (insertNode [] (b :: rest2) (joinPath cur a) c1)
                (b :: rest2) (joinPath cur a) c2))) := by
          rw [insertNode, hj]
        rw [e1, e3, hinner, e2]
        exact heq

/-- C3 (amended): on a well-formed tree (sibling paths pairwise distinct and
each node's path the slash-join of its parent path and name, as holds for
every tree the builder maintains), re-upserting the same path replaces the
leaf's content without duplicating any node:
upsertFile (upsertFile t p c1) p c2 = upsertFile t p c2. -/
theorem c3_upsert_idem (t : List FileItem) (p c1 c2 : String)
    (h : WfList "" t) :
    upsertFile (upsertFile t p c1) p c2 = upsertFile t p c2 := by
  unfold upsertFile
  by_cases hp : p = ""
  · simp only [if_pos hp]
  · simp only [if_neg hp]
    exact insertNode_idem (splitSegs p) t "" c1 c2 h

theorem c3_upsert_idem_witness :
    upsertFile (upsertFile [] "a/b" "c1") "a/b" "c2" = upsertFile [] "a/b" "c2" :=
  c3_upsert_idem [] "a/b" "c1" "c2" (wfList_nil "")

/-- C3 as stated fails on an arbitrary tree: with two sibling folders both
carrying path "a", the first upsert of "a/x" lands in the first folder, the
re-sort moves the other folder to the front, and the second upsert lands in
that other folder, so the double upsert differs from the single one (the
first folder keeps a stale child). -/
theorem c3_counterexample :
    ¬ (upsertFile (upsertFile c3cxTree "a/x" "c1") "a/x" "c2" =
       upsertFile c3cxTree "a/x" "c2") :=
  fun he => absurd (congrArg firstChildCount he) (by decide)

/-- C10 (amended): at any level of a well-formed tree, if an intermediate
segment of the remaining path resolves to a file node, inserting silently
replaces that file with a fresh folder of the same name and path (the file
content is discarded), continues inserting the remaining segments beneath
it, and the result has exactly one node at that path. On a tree whose node
names need not match its paths the replacement folder is named after the
path segment, not after the file it replaces. -/
theorem c10_file_to_folder (nodes : List FileItem) (cur : String)
    (a b : String) (rest : List String) (c : String) (i : Nat)
    (n q co : String) (h : WfList cur nodes)
    (hl : lookupPath nodes (joinPath cur a) = some (i, .file n q co)) :
    n = a ∧ q = joinPath cur a ∧
    FileItem.folder n q (insertNode [] (b :: rest) (joinPath cur a) c) ∈
      insertNode nodes (a :: b :: rest) cur c ∧
    FileItem.file n q co ∉ insertNode nodes (a :: b :: rest) cur c ∧
    (insertNode nodes (a :: b :: rest) cur c).countP
      (fun y => y.path == joinPath cur a) = 1 := by
  obtain ⟨hxmem, hxp, hget⟩ := lookupPath_spec nodes (joinPath cur a) i _ hl
  have hi : i < nodes.length := get?_some_lt hget
  have hq : q = joinPath cur a := hxp
  have hcons : q = joinPath cur n := h.consistent _ hxmem
  have hn : n = a := joinPath_inj (hcons.symm.trans hq)
  have e1 : insertNode nodes (a :: b :: rest) cur c =
      sortFileNodes (nodes.set i (.folder a (joinPath cur a)
        (insertNode [] (b :: rest) (joinPath cur a) c))) := by
    rw [insertNode, hl]
  have hperm : List.Perm (insertNode nodes (a :: b :: rest) cur c)
      (FileItem.folder a (joinPath cur a) (insertNode [] (b :: rest) (joinPath cur a) c)
        :: nodes.eraseIdx i) := by
    rw [e1]
    exact (sortFileNodes_perm _).trans (set_perm_cons nodes i _ hi)
  have hnodup : nodes.Nodup := List.Nodup.of_map FileItem.path h.nodup
  have hgp : (nodes.map FileItem.path).get? i = some (joinPath cur a) := by
    rw [List.get?_map, hget]
    exact congrArg some hxp
  have hfpout : joinPath cur a ∉ (nodes.map FileItem.path).eraseIdx i :=
    nodup_get_not_mem_eraseIdx (nodes.map FileItem.path) i (joinPath cur a) h.nodup hgp
  subst hn
  subst hq
  refine ⟨rfl, hxp, ?_, ?_, ?_⟩
  · exact hperm.mem_iff.2 (List.mem_cons_self _ _)
  · intro hmem
    rcases List.mem_cons.1 (hperm.mem_iff.1 hmem) with heq | hmem2
    · exact FileItem.noConfusion heq
    · exact nodup_get_not_mem_eraseIdx nodes i _ hnodup hget hmem2
  · rw [hperm.countP_eq]
    have hhead : (FileItem.folder n (joinPath cur n)
        (insertNode [] (b :: rest) (joinPath cur n) c)).path == joinPath cur n := by
      simp [FileItem.path]
    rw [List.countP_cons_of_pos (fun y => FileItem.path y == joinPath cur n) _ hhead]
    have hzero : (nodes.eraseIdx i).countP (fun y => y.path == joinPath cur n) = 0 := by
      rw [List.countP_eq_zero]
      intro z hz hbeq
      have hzp : z.path = joinPath cur n := eq_of_beq hbeq
      have : z.path ∈ (nodes.map FileItem.path).eraseIdx i := by
        rw [← map_eraseIdx']
        exact List.mem_map_of_mem FileItem.path hz
      rw [hzp] at this
      exact hfpout this
    rw [hzero]

theorem c10_file_to_folder_witness :
    ("a" : String) = "a" ∧ ("a" : String) = joinPath "" "a" ∧
    FileItem.folder "a" "a" (insertNode [] ("b" :: []) (joinPath "" "a") "body") ∈
      insertNode [FileItem.file "a" "a" "old"] ("a" :: "b" :: []) "" "body" ∧
    FileItem.file "a" "a" "old" ∉
      insertNode [FileItem.file "a" "a" "old"] ("a" :: "b" :: []) "" "body" ∧
    (insertNode [FileItem.file "a" "a" "old"] ("a" :: "b" :: []) "" "body").countP
      (fun y => y.path == joinPath "" "a") = 1 :=
  c10_file_to_folder [FileItem.file "a" "a" "old"] "" "a" "b" [] "body" 0 "a" "a" "old"
    (WfList.mk _ _ (by decide) (by decide)
      (by intro n2 p2 ch2 hm; exact FileItem.noConfusion (List.mem_singleton.1 hm)))
    rfl

/-- C10's "same name" part fails on an arbitrary tree: a file node named
"weird" sitting at path "a" is replaced by a folder named after the path
segment "a", not after the file, so no node of the file's name survives. -/
theorem c10_counterexample :
    (upsertFile [FileItem.file "weird" "a" "data"] "a/b" "c").map FileItem.name
      = ["a"] ∧ ("a" : String) ≠ "weird" :=
  ⟨rfl, by decide⟩

end Appia
